import Mathlib

/-!
# Verification of the app-route resolution core (`app_structure.rs`, `emit.rs`)

Shallow embedding of the directory-to-route resolution engine and the output
asset walker/emitter of the bundler core.  Paths are modelled as strings,
machine integers as `Int` with the explicit i32 bound where the code parses
numeric suffixes, and the memoized `Vc<_>` indirections of the source are
flattened away (they are pure values).
-/

/-- A file-system path (the source's `Vc<FileSystemPath>`), as a plain string. -/
abbrev FSPath := String

/- ### String helpers mirroring the Rust `str` operations used by the source -/

/-- `str::split_once('.')` on a character list: split at the first dot. -/
def splitDotList : List Char → Option (List Char × List Char)
  | [] => none
  | c :: rest =>
    if c = '.' then some ([], rest)
    else
      match splitDotList rest with
      | some (a, b) => some (c :: a, b)
      | none => none

/-- `str::split_once('.')`: `"stem.ext"` split at the first dot. -/
def splitOnceDot (s : String) : Option (String × String) :=
  (splitDotList s.toList).map (fun p => (String.mk p.1, String.mk p.2))

/-- `str::rsplit_once('.')` restricted to the first component (the basename
without its last extension), used for the `.alt.txt` sidecar lookup. -/
def rsplitDotHead (l : List Char) : Option (List Char) :=
  match splitDotList l.reverse with
  | some (_, b) => some b.reverse
  | none => none

/-- The regex `^(.*?)(\d*)$` of `match_metadata_file`: split a stem into the
base and its trailing run of (ASCII) digits. -/
def splitTrailingDigits (l : List Char) : List Char × List Char :=
  let ds := (l.reverse.takeWhile (fun c => c.isDigit)).reverse
  (l.take (l.length - ds.length), ds)

/-- Numeric value of a digit run (the digits are ASCII `0`-`9`). -/
def digitsToNat (l : List Char) : Nat :=
  l.foldl (fun acc c => acc * 10 + (c.toNat - 48)) 0

/-- `str::parse::<i32>().unwrap_or(-1)` on a trailing digit run: the empty
run and any value exceeding `i32::MAX = 2147483647` fail to parse and fall
back to the sentinel `-1`. -/
def parseNumI32 : List Char → Int
  | [] => -1
  | c :: rest =>
    if digitsToNat (c :: rest) > 2147483647 then -1
    else (digitsToNat (c :: rest) : Int)

/- ### Metadata data model -/

/-- A single metadata file plus an optional `alt` text file
(`MetadataWithAltItem`). -/
inductive MetadataWithAltItem where
  | static (path : FSPath) (alt_path : Option FSPath)
  | dynamic (path : FSPath)
deriving DecidableEq, Repr

/-- A single metadata file (`MetadataItem`). -/
inductive MetadataItem where
  | static (path : FSPath)
  | dynamic (path : FSPath)
deriving DecidableEq, Repr

/-- The per-directory `Metadata` bag. -/
structure Metadata where
  icon : List MetadataWithAltItem
  apple : List MetadataWithAltItem
  twitter : List MetadataWithAltItem
  open_graph : List MetadataWithAltItem
  favicon : List MetadataWithAltItem
  manifest : Option MetadataItem
deriving DecidableEq, Repr

/-- `Metadata::default()`. -/
def Metadata.empty : Metadata := ⟨[], [], [], [], [], none⟩

/-- `Metadata::merge`: the lists are concatenated (`a` first), the manifest is
left-biased. -/
def Metadata.merge (a b : Metadata) : Metadata :=
  ⟨a.icon ++ b.icon, a.apple ++ b.apple, a.twitter ++ b.twitter,
    a.open_graph ++ b.open_graph, a.favicon ++ b.favicon, a.manifest.or b.manifest⟩

/-- The per-directory `Components` bag of special files. -/
structure Components where
  page : Option FSPath
  layout : Option FSPath
  error : Option FSPath
  loading : Option FSPath
  template : Option FSPath
  not_found : Option FSPath
  default : Option FSPath
  route : Option FSPath
  metadata : Metadata
deriving DecidableEq, Repr

/-- `Components::default()`. -/
def Components.empty : Components :=
  ⟨none, none, none, none, none, none, none, none, Metadata.empty⟩

/-- `Components::without_leafs`: strip the leaf-only slots page/default/route. -/
def Components.without_leafs (c : Components) : Components :=
  ⟨none, c.layout, c.error, c.loading, c.template, c.not_found, none, none, c.metadata⟩

/-- `Components::merge`: field-by-field left-biased union, metadata merged. -/
def Components.merge (a b : Components) : Components :=
  ⟨a.page.or b.page, a.layout.or b.layout, a.error.or b.error, a.loading.or b.loading,
    a.template.or b.template, a.not_found.or b.not_found, a.default.or b.default,
    a.route.or b.route, Metadata.merge a.metadata b.metadata⟩

/-- The `STATIC_LOCAL_METADATA` extension table. -/
def staticLocalMetadata : String → Option (List String)
  | "icon" => some ["ico", "jpg", "jpeg", "png", "svg"]
  | "apple-icon" => some ["jpg", "jpeg", "png"]
  | "opengraph-image" => some ["jpg", "jpeg", "png", "gif"]
  | "twitter-image" => some ["jpg", "jpeg", "png", "gif"]
  | "favicon" => some ["ico"]
  | "manifest" => some ["webmanifest", "json"]
  | _ => none

/-- The `STATIC_GLOBAL_METADATA` extension table. -/
def staticGlobalMetadata : String → Option (List String)
  | "favicon" => some ["ico"]
  | "robots" => some ["txt"]
  | "sitemap" => some ["xml"]
  | _ => none

/-- `match_metadata_file`: split the basename at the first dot, strip the
trailing digit run of the stem (with `-1` as the no-suffix/overflow
sentinel), and classify as dynamic (page extension) or static (extension
table) metadata. -/
def match_metadata_file (basename : String) (pageExts : List String) :
    Option (String × Int × Bool) :=
  match splitOnceDot basename with
  | none => none
  | some (stem0, ext) =>
    let p := splitTrailingDigits stem0.toList
    let stem := String.mk p.1
    let num := parseNumI32 p.2
    if pageExts.contains ext then some (stem, num, true)
    else
      match staticLocalMetadata stem with
      | none => none
      | some exts => if exts.contains ext then some (stem, num, false) else none

/- ### The stable sort of the metadata lists -/

/-- Stable insertion into a list sorted ascending by the numeric key: the
inserted element goes before every element with an equal key (those came
later in discovery order). -/
def insertPair (x : Int × MetadataWithAltItem) :
    List (Int × MetadataWithAltItem) → List (Int × MetadataWithAltItem)
  | [] => [x]
  | y :: ys => if y.1 < x.1 then y :: insertPair x ys else x :: y :: ys

/-- Stable sort of keyed metadata items ascending by key, as performed by
`list.sort_by_key(|(num, _)| *num)` (a stable sort) in `get_directory_tree`. -/
def sortPairs : List (Int × MetadataWithAltItem) → List (Int × MetadataWithAltItem)
  | [] => []
  | x :: xs => insertPair x (sortPairs xs)

/-- The `sort` helper of `get_directory_tree`: stable sort by key, then
discard the key. -/
def sortByNum (l : List (Int × MetadataWithAltItem)) : List MetadataWithAltItem :=
  (sortPairs l).map Prod.snd

/- ### File-system model and the directory tree -/

/-- One entry of a directory listing (`DirectoryEntry`): a file, a
subdirectory carrying its own listing, or anything else (symlinks etc.,
which the source ignores). -/
inductive FsEntry where
  | file : FsEntry
  | directory : List (String × FsEntry) → FsEntry
  | other : FsEntry

/-- The `DirectoryTree`: ordered subdirectory map (keys sorted, as in a
`BTreeMap`) plus the directory's own `Components`. -/
inductive DirectoryTree where
  | mk (subdirectories : List (String × DirectoryTree)) (components : Components)

/-- Subdirectory map of a `DirectoryTree`. -/
def DirectoryTree.subdirectories : DirectoryTree → List (String × DirectoryTree)
  | .mk s _ => s

/-- Components of a `DirectoryTree`. -/
def DirectoryTree.components : DirectoryTree → Components
  | .mk _ c => c

/-- `BTreeMap::insert`: keep keys sorted ascending, replace on an equal key. -/
def btInsert (k : String) (v : DirectoryTree) :
    List (String × DirectoryTree) → List (String × DirectoryTree)
  | [] => [(k, v)]
  | (k', v') :: rest =>
    if k = k' then (k, v) :: rest
    else if k < k' then (k, v) :: (k', v') :: rest
    else (k', v') :: btInsert k v rest

/-- `path.replace("%5F", "_")`: left-to-right, non-overlapping. -/
def replace5F : List Char → List Char
  | '%' :: '5' :: 'F' :: rest => '_' :: replace5F rest
  | c :: rest => c :: replace5F rest
  | [] => []

/-- `get_underscore_normalized_path`. -/
def get_underscore_normalized_path (path : String) : String :=
  String.mk (replace5F path.toList)

/-- `str::starts_with` on the underlying characters (kernel-computable). -/
def strStartsWith (s pre : String) : Bool :=
  pre.toList.isPrefixOf s.toList

/-- Accumulator of the entry loop of `get_directory_tree`: the subdirectory
map, the components, and the five keyed metadata lists awaiting the sort. -/
structure GdtAcc where
  subdirs : List (String × DirectoryTree)
  comps : Components
  mIcon : List (Int × MetadataWithAltItem)
  mApple : List (Int × MetadataWithAltItem)
  mOpenGraph : List (Int × MetadataWithAltItem)
  mTwitter : List (Int × MetadataWithAltItem)
  mFavicon : List (Int × MetadataWithAltItem)

/-- Does the listing contain a plain file of the given name?  Used for the
`<basename>.alt.txt` sidecar existence check. -/
def hasFileEntry (entries : List (String × FsEntry)) (name : String) : Bool :=
  entries.any (fun e =>
    e.1 == name && (match e.2 with | .file => true | _ => false))

/-- Processing of one file entry of `get_directory_tree`: special-file slot
assignment (the dynamic-manifest case `continue`s past metadata matching),
then metadata matching with the `.alt.txt` sidecar lookup for static items. -/
def processFileEntry (dirPath : String) (pageExts : List String)
    (all : List (String × FsEntry)) (basename : String) (acc : GdtAcc) : GdtAcc :=
  let filePath := dirPath ++ "/" ++ basename
  let specifics : Components × Bool :=
    match splitOnceDot basename with
    | some (stem, ext) =>
      if pageExts.contains ext then
        match stem with
        | "page" => ({ acc.comps with page := some filePath }, false)
        | "layout" => ({ acc.comps with layout := some filePath }, false)
        | "error" => ({ acc.comps with error := some filePath }, false)
        | "loading" => ({ acc.comps with loading := some filePath }, false)
        | "template" => ({ acc.comps with template := some filePath }, false)
        | "not-found" => ({ acc.comps with not_found := some filePath }, false)
        | "default" => ({ acc.comps with default := some filePath }, false)
        | "route" => ({ acc.comps with route := some filePath }, false)
        | "manifest" =>
          ({ acc.comps with
              metadata := { acc.comps.metadata with
                manifest := some (MetadataItem.dynamic filePath) } }, true)
        | _ => (acc.comps, false)
      else (acc.comps, false)
    | none => (acc.comps, false)
  let acc1 := { acc with comps := specifics.1 }
  if specifics.2 then acc1
  else
    match match_metadata_file basename pageExts with
    | none => acc1
    | some (mtype, num, dyn) =>
      if mtype = "manifest" then
        if num = -1 then
          { acc1 with comps := { acc1.comps with
              metadata := { acc1.comps.metadata with
                manifest := some (MetadataItem.static filePath) } } }
        else acc1
      else
        let item : MetadataWithAltItem :=
          if dyn then MetadataWithAltItem.dynamic filePath
          else
            let base := (rsplitDotHead basename.toList).getD basename.toList
            let altName := String.mk base ++ ".alt.txt"
            let alt :=
              if hasFileEntry all altName then some (dirPath ++ "/" ++ altName)
              else none
            MetadataWithAltItem.static filePath alt
        match mtype with
        | "icon" => { acc1 with mIcon := acc1.mIcon ++ [(num, item)] }
        | "apple-icon" => { acc1 with mApple := acc1.mApple ++ [(num, item)] }
        | "twitter-image" => { acc1 with mTwitter := acc1.mTwitter ++ [(num, item)] }
        | "opengraph-image" => { acc1 with mOpenGraph := acc1.mOpenGraph ++ [(num, item)] }
        | "favicon" => { acc1 with mFavicon := acc1.mFavicon ++ [(num, item)] }
        | _ => acc1

mutual

/-- `get_directory_tree` on a directory listing: walk the entries
(classifying files, recursing into non-private subdirectories), then
stable-sort each keyed metadata list and discard the keys. -/
def get_directory_tree (dirPath : String) (pageExts : List String)
    (entries : List (String × FsEntry)) : DirectoryTree :=
  let acc := gdtWalk dirPath pageExts entries entries
    ⟨[], Components.empty, [], [], [], [], []⟩
  DirectoryTree.mk acc.subdirs
    { acc.comps with
      metadata :=
        { acc.comps.metadata with
          icon := sortByNum acc.mIcon
          apple := sortByNum acc.mApple
          twitter := sortByNum acc.mTwitter
          open_graph := sortByNum acc.mOpenGraph
          favicon := sortByNum acc.mFavicon } }
termination_by (sizeOf entries, 1)

/-- The entry loop of `get_directory_tree`: files are classified, private
(`_`-leading) subdirectories are skipped, other subdirectories are built
recursively and inserted under their `%5F`-unescaped name. -/
def gdtWalk (dirPath : String) (pageExts : List String)
    (all : List (String × FsEntry)) (todo : List (String × FsEntry))
    (acc : GdtAcc) : GdtAcc :=
  match todo with
  | [] => acc
  | (basename, entry) :: rest =>
    let acc2 :=
      match entry with
      | .file => processFileEntry dirPath pageExts all basename acc
      | .directory sub =>
        if strStartsWith basename "_" then acc
        else
          { acc with
            subdirs := btInsert (get_underscore_normalized_path basename)
              (get_directory_tree (dirPath ++ "/" ++ basename) pageExts sub)
              acc.subdirs }
      | .other => acc
    gdtWalk dirPath pageExts all rest acc2
termination_by (sizeOf todo, 0)

end

/- ### Lemmas about the stable sort -/

theorem mem_insertPair (a x : Int × MetadataWithAltItem) (l : List (Int × MetadataWithAltItem)) :
    a ∈ insertPair x l ↔ a = x ∨ a ∈ l := by
  induction l with
  | nil => simp [insertPair]
  | cons y ys ih =>
    by_cases h : y.1 < x.1
    · rw [insertPair, if_pos h]
      simp [ih]
      tauto
    · rw [insertPair, if_neg h]
      simp

theorem insertPair_pairwise (x : Int × MetadataWithAltItem)
    (l : List (Int × MetadataWithAltItem))
    (h : l.Pairwise (fun a b => a.1 ≤ b.1)) :
    (insertPair x l).Pairwise (fun a b => a.1 ≤ b.1) := by
  induction l with
  | nil => simp [insertPair]
  | cons y ys ih =>
    rw [List.pairwise_cons] at h
    by_cases hlt : y.1 < x.1
    · rw [insertPair, if_pos hlt, List.pairwise_cons]
      refine ⟨fun z hz => ?_, ih h.2⟩
      rcases (mem_insertPair z x ys).mp hz with rfl | hz
      · exact le_of_lt hlt
      · exact h.1 z hz
    · rw [insertPair, if_neg hlt, List.pairwise_cons]
      refine ⟨fun z hz => ?_, List.pairwise_cons.mpr h⟩
      rcases List.mem_cons.mp hz with rfl | hz
      · exact le_of_not_lt hlt
      · exact le_trans (le_of_not_lt hlt) (h.1 z hz)

theorem filter_insertPair (k : Int) (x : Int × MetadataWithAltItem)
    (l : List (Int × MetadataWithAltItem)) :
    (insertPair x l).filter (fun a => decide (a.1 = k)) =
      if x.1 = k then x :: l.filter (fun a => decide (a.1 = k))
      else l.filter (fun a => decide (a.1 = k)) := by
  induction l with
  | nil =>
    by_cases hx : x.1 = k <;> simp [insertPair, List.filter, hx]
  | cons y ys ih =>
    by_cases hlt : y.1 < x.1
    · rw [insertPair, if_pos hlt, List.filter_cons, ih]
      by_cases hx : x.1 = k
      · have hy : ¬ y.1 = k := by omega
        simp [hx, hy, List.filter_cons]
      · simp only [if_neg hx, List.filter_cons]
    · rw [insertPair, if_neg hlt, List.filter_cons]
      by_cases hx : x.1 = k
      · simp [hx, List.filter_cons]
      · simp [hx, List.filter_cons]

theorem sortPairs_pairwise (l : List (Int × MetadataWithAltItem)) :
    (sortPairs l).Pairwise (fun a b => a.1 ≤ b.1) := by
  induction l with
  | nil => simp [sortPairs]
  | cons x xs ih => exact insertPair_pairwise x (sortPairs xs) ih

theorem sortPairs_filter (l : List (Int × MetadataWithAltItem)) (k : Int) :
    (sortPairs l).filter (fun a => decide (a.1 = k)) =
      l.filter (fun a => decide (a.1 = k)) := by
  induction l with
  | nil => rfl
  | cons x xs ih =>
    rw [sortPairs, filter_insertPair]
    by_cases hx : x.1 = k
    · rw [if_pos hx, ih]
      simp [List.filter, hx]
    · rw [if_neg hx, ih]
      simp [List.filter, hx]

theorem sortPairs_perm (l : List (Int × MetadataWithAltItem)) :
    (sortPairs l).Perm l := by
  induction l with
  | nil => rfl
  | cons x xs ih =>
    have h1 : (insertPair x (sortPairs xs)).Perm (x :: sortPairs xs) := by
      generalize sortPairs xs = m
      induction m with
      | nil => rfl
      | cons y ys ihm =>
        by_cases hlt : y.1 < x.1
        · rw [insertPair, if_pos hlt]
          exact (ihm.cons y).trans (List.Perm.swap x y ys)
        · rw [insertPair, if_neg hlt]
    exact h1.trans (ih.cons x)

/- ### C2: metadata ordering -/

/-- **C2.** Each resolved metadata sequence is sorted ascending by the
numeric suffix parsed from the filename stem (the keyed list is stable-sorted
by key): the keys of the sorted list are pairwise nondecreasing, elements
with equal keys keep their original discovery order (the filter by any key is
unchanged), the sort is a permutation, and `icon.png`, `icon1.png`,
`icon2.png` (suffix keys `-1 < 1 < 2`) resolve in exactly that order. -/
theorem c2_metadata_suffix_order :
    (∀ l : List (Int × MetadataWithAltItem),
        (sortPairs l).Pairwise (fun a b => a.1 ≤ b.1))
    ∧ (∀ (l : List (Int × MetadataWithAltItem)) (k : Int),
        (sortPairs l).filter (fun a => decide (a.1 = k)) =
          l.filter (fun a => decide (a.1 = k)))
    ∧ (∀ l : List (Int × MetadataWithAltItem), (sortPairs l).Perm l)
    ∧ (get_directory_tree "app" ["tsx"]
        [("icon.png", .file), ("icon1.png", .file), ("icon2.png", .file)]).components.metadata.icon =
        [.static "app/icon.png" none, .static "app/icon1.png" none,
          .static "app/icon2.png" none] := by
  refine ⟨sortPairs_pairwise, sortPairs_filter, sortPairs_perm, ?_⟩
  simp only [get_directory_tree, gdtWalk]
  decide

/- ### C10: i32 overflow of the numeric suffix -/

theorem parseNumI32_ge_neg_one (ds : List Char) : -1 ≤ parseNumI32 ds := by
  cases ds with
  | nil => simp [parseNumI32]
  | cons c rest =>
    rw [parseNumI32]
    split
    · exact le_refl _
    · exact le_trans (by omega) (Int.ofNat_nonneg _)

theorem parseNumI32_overflow (ds : List Char) (h : digitsToNat ds > 2147483647) :
    parseNumI32 ds = -1 := by
  cases ds with
  | nil => simp [digitsToNat, List.foldl] at h
  | cons c rest => rw [parseNumI32, if_pos h]

theorem match_metadata_file_num (basename : String) (pageExts : List String)
    (stem0 ext : String) (h : splitOnceDot basename = some (stem0, ext))
    (t : String) (n : Int) (d : Bool)
    (hm : match_metadata_file basename pageExts = some (t, n, d)) :
    n = parseNumI32 (splitTrailingDigits stem0.toList).2 := by
  rw [match_metadata_file, h] at hm
  dsimp only at hm
  split at hm
  · cases hm
    rfl
  · split at hm
    · exact absurd hm (by simp)
    · split at hm
      · cases hm
        rfl
      · exact absurd hm (by simp)

/-- **C10.** A trailing digit run that exceeds `i32::MAX = 2147483647` fails
the `parse::<i32>()` and falls back to the no-suffix sentinel `-1`; the
sentinel is a lower bound for every parsed suffix, so the item sorts as if it
had no suffix.  Concretely `icon2147483648.png` gets key `-1` while
`icon2147483647.png` still parses. -/
theorem c10_suffix_overflow_sentinel :
    (∀ (basename : String) (pageExts : List String) (stem0 ext t : String)
        (n : Int) (d : Bool),
        splitOnceDot basename = some (stem0, ext) →
        digitsToNat (splitTrailingDigits stem0.toList).2 > 2147483647 →
        match_metadata_file basename pageExts = some (t, n, d) → n = -1)
    ∧ (∀ (basename : String) (pageExts : List String) (t : String) (n : Int) (d : Bool),
        match_metadata_file basename pageExts = some (t, n, d) → -1 ≤ n)
    ∧ match_metadata_file "icon2147483648.png" [] = some ("icon", -1, false)
    ∧ match_metadata_file "icon2147483647.png" [] = some ("icon", 2147483647, false) := by
  refine ⟨?_, ?_, by decide, by decide⟩
  · intro basename pageExts stem0 ext t n d h hov hm
    rw [match_metadata_file_num basename pageExts stem0 ext h t n d hm]
    exact parseNumI32_overflow _ hov
  · intro basename pageExts t n d hm
    rcases hsplit : splitOnceDot basename with _ | ⟨stem0, ext⟩
    · rw [match_metadata_file, hsplit] at hm
      exact absurd hm (by simp)
    · rw [match_metadata_file_num basename pageExts stem0 ext hsplit t n d hm]
      exact parseNumI32_ge_neg_one _

/-- Witness for C10: the hypotheses of its first conjunct hold at the
concrete input `icon2147483648.png`, whose digit run exceeds `i32::MAX`. -/
theorem c10_suffix_overflow_sentinel_witness :
    splitOnceDot "icon2147483648.png" = some ("icon2147483648", "png")
    ∧ digitsToNat (splitTrailingDigits (String.toList "icon2147483648")).2 > 2147483647
    ∧ match_metadata_file "icon2147483648.png" [] = some ("icon", -1, false)
    ∧ (-1 : Int) = -1 := by
  refine ⟨by decide, by decide, by decide, ?_⟩
  exact c10_suffix_overflow_sentinel.1 "icon2147483648.png" [] "icon2147483648" "png"
    "icon" (-1) false (by decide) (by decide) (by decide)

/- ### C9: private directories and the `%5F` escape -/

theorem gdtWalk_nil (d : String) (p : List String) (all : List (String × FsEntry)) (acc : GdtAcc) :
    gdtWalk d p all [] acc = acc := by
  rw [gdtWalk.eq_def]

theorem gdtWalk_cons (d : String) (p : List String) (all : List (String × FsEntry))
    (b : String) (e : FsEntry) (rest : List (String × FsEntry)) (acc : GdtAcc) :
    gdtWalk d p all ((b, e) :: rest) acc =
      gdtWalk d p all rest
        (match e with
          | .file => processFileEntry d p all b acc
          | .directory sub =>
            if strStartsWith b "_" then acc
            else
              { acc with
                subdirs := btInsert (get_underscore_normalized_path b)
                  (get_directory_tree (d ++ "/" ++ b) p sub) acc.subdirs }
          | .other => acc) := by
  rw [gdtWalk.eq_def]

theorem processFileEntry_subdirs (d : String) (p : List String)
    (all : List (String × FsEntry)) (b : String) (acc : GdtAcc) :
    (processFileEntry d p all b acc).subdirs = acc.subdirs := by
  unfold processFileEntry
  repeat' split
  all_goals rfl

theorem processFileEntry_congr (d : String) (p : List String)
    (all all' : List (String × FsEntry)) (b : String) (acc : GdtAcc)
    (h : ∀ a, hasFileEntry all a = hasFileEntry all' a) :
    processFileEntry d p all b acc = processFileEntry d p all' b acc := by
  simp only [processFileEntry, h]

theorem gdtWalk_congr (d : String) (p : List String)
    (all all' : List (String × FsEntry)) (todo : List (String × FsEntry)) (acc : GdtAcc)
    (h : ∀ a, hasFileEntry all a = hasFileEntry all' a) :
    gdtWalk d p all todo acc = gdtWalk d p all' todo acc := by
  induction todo generalizing acc with
  | nil => rw [gdtWalk_nil, gdtWalk_nil]
  | cons be rest ih =>
    obtain ⟨b, e⟩ := be
    rw [gdtWalk_cons, gdtWalk_cons]
    cases e with
    | file => rw [processFileEntry_congr d p all all' b acc h]; exact ih _
    | directory sub => exact ih _
    | other => exact ih _

theorem gdtWalk_skip_private (d : String) (p : List String)
    (all : List (String × FsEntry)) (pre post : List (String × FsEntry))
    (name : String) (sub : List (String × FsEntry)) (acc : GdtAcc)
    (h : strStartsWith name "_" = true) :
    gdtWalk d p all (pre ++ (name, FsEntry.directory sub) :: post) acc =
      gdtWalk d p all (pre ++ post) acc := by
  induction pre generalizing acc with
  | nil =>
    rw [List.nil_append, List.nil_append, gdtWalk_cons]
    simp only [h, if_true]
  | cons be rest ih =>
    obtain ⟨b, e⟩ := be
    rw [List.cons_append, gdtWalk_cons, List.cons_append, gdtWalk_cons]
    exact ih _

theorem hasFileEntry_elim_dir (pre post : List (String × FsEntry))
    (name : String) (sub : List (String × FsEntry)) (a : String) :
    hasFileEntry (pre ++ (name, FsEntry.directory sub) :: post) a =
      hasFileEntry (pre ++ post) a := by
  simp [hasFileEntry, List.any_append]

theorem btInsert_mem_key (k : String) (v : DirectoryTree)
    (l : List (String × DirectoryTree)) :
    k ∈ (btInsert k v l).map Prod.fst := by
  induction l with
  | nil => simp [btInsert]
  | cons e rest ih =>
    obtain ⟨k', v'⟩ := e
    by_cases h1 : k = k'
    · simp [btInsert, h1]
    · by_cases h2 : k < k'
      · simp [btInsert, h1, h2]
      · simp only [btInsert, if_neg h1, if_neg h2, List.map_cons, List.mem_cons]
        exact Or.inr ih

theorem btInsert_mem_key_mono (k k' : String) (v : DirectoryTree)
    (l : List (String × DirectoryTree)) (h : k' ∈ l.map Prod.fst) :
    k' ∈ (btInsert k v l).map Prod.fst := by
  induction l with
  | nil => simp at h
  | cons e rest ih =>
    obtain ⟨k1, v1⟩ := e
    rw [List.map_cons, List.mem_cons] at h
    by_cases h1 : k = k1
    · subst h1
      rcases h with rfl | h
      · simp [btInsert]
      · rw [btInsert, if_pos rfl]
        simp only [List.map_cons, List.mem_cons]
        exact Or.inr h
    · by_cases h2 : k < k1
      · simp only [btInsert, if_neg h1, if_pos h2, List.map_cons, List.mem_cons]
        tauto
      · simp only [btInsert, if_neg h1, if_neg h2, List.map_cons, List.mem_cons]
        rcases h with rfl | h
        · exact Or.inl rfl
        · exact Or.inr (ih h)

theorem gdtWalk_subdir_keys_mono (d : String) (p : List String)
    (all : List (String × FsEntry)) (todo : List (String × FsEntry)) (acc : GdtAcc)
    (k : String) (h : k ∈ acc.subdirs.map Prod.fst) :
    k ∈ (gdtWalk d p all todo acc).subdirs.map Prod.fst := by
  induction todo generalizing acc with
  | nil => rw [gdtWalk_nil]; exact h
  | cons be rest ih =>
    obtain ⟨b, e⟩ := be
    rw [gdtWalk_cons]
    cases e with
    | file =>
      exact ih _ (by rw [processFileEntry_subdirs]; exact h)
    | directory sub =>
      by_cases hb : strStartsWith b "_"
      · simp only [hb, if_true]
        exact ih _ h
      · simp only [hb, if_false]
        exact ih _ (btInsert_mem_key_mono _ _ _ _ h)
    | other => exact ih _ h

theorem gdtWalk_inserts_key (d : String) (p : List String)
    (all : List (String × FsEntry)) (todo : List (String × FsEntry)) (acc : GdtAcc)
    (name : String) (sub : List (String × FsEntry))
    (hmem : (name, FsEntry.directory sub) ∈ todo)
    (hpriv : strStartsWith name "_" = false) :
    get_underscore_normalized_path name ∈
      (gdtWalk d p all todo acc).subdirs.map Prod.fst := by
  induction todo generalizing acc with
  | nil => simp at hmem
  | cons be rest ih =>
    obtain ⟨b, e⟩ := be
    rw [gdtWalk_cons]
    rcases List.mem_cons.mp hmem with heq | hmem2
    · injection heq with h1 h2
      subst h1
      subst h2
      simp only [hpriv, Bool.false_eq_true, if_false]
      exact gdtWalk_subdir_keys_mono d p all rest _ _ (btInsert_mem_key _ _ _)
    · cases e with
      | file => exact ih _ hmem2
      | directory s =>
        by_cases hb : strStartsWith b "_"
        · simp only [hb, if_true]; exact ih _ hmem2
        · simp only [hb, if_false]; exact ih _ hmem2
      | other => exact ih _ hmem2

/-- **C9.** A subdirectory whose raw name starts with `_` is never
materialized: deleting it from the listing leaves the resulting
`DirectoryTree` unchanged (so nothing beneath it can appear anywhere
downstream); a non-private subdirectory is keyed into the tree under its
`%5F`-unescaped name; and the escape turns `%5F` into a literal underscore. -/
theorem c9_private_directories :
    (∀ (d : String) (p : List String) (pre post : List (String × FsEntry))
        (name : String) (sub : List (String × FsEntry)),
        strStartsWith name "_" = true →
        get_directory_tree d p (pre ++ (name, FsEntry.directory sub) :: post) =
          get_directory_tree d p (pre ++ post))
    ∧ (∀ (d : String) (p : List String) (entries : List (String × FsEntry))
        (name : String) (sub : List (String × FsEntry)),
        (name, FsEntry.directory sub) ∈ entries →
        strStartsWith name "_" = false →
        get_underscore_normalized_path name ∈
          (get_directory_tree d p entries).subdirectories.map Prod.fst)
    ∧ get_underscore_normalized_path "%5Fprivate" = "_private" := by
  refine ⟨?_, ?_, by decide⟩
  · intro d p pre post name sub h
    simp only [get_directory_tree]
    rw [gdtWalk_skip_private d p _ pre post name sub _ h,
      gdtWalk_congr d p (pre ++ (name, FsEntry.directory sub) :: post) (pre ++ post)
        (pre ++ post) _ (fun a => hasFileEntry_elim_dir pre post name sub a)]
  · intro d p entries name sub hmem hpriv
    simp only [get_directory_tree, DirectoryTree.subdirectories]
    exact gdtWalk_inserts_key d p entries entries _ name sub hmem hpriv

/-- Witness for C9: concrete instances of both hypothesis-bearing conjuncts
(`_private` is dropped bodily; `%5Fpub` appears as key `_pub`). -/
theorem c9_private_directories_witness :
    strStartsWith "_private" "_" = true
    ∧ get_directory_tree "app" ["tsx"]
        ([] ++ ("_private", FsEntry.directory [("page.tsx", .file)]) :: []) =
        get_directory_tree "app" ["tsx"] ([] ++ [])
    ∧ ("%5Fpub", FsEntry.directory []) ∈ [("%5Fpub", FsEntry.directory [])]
    ∧ strStartsWith "%5Fpub" "_" = false
    ∧ get_underscore_normalized_path "%5Fpub" ∈
        (get_directory_tree "app" ["tsx"]
          [("%5Fpub", FsEntry.directory [])]).subdirectories.map Prod.fst := by
  refine ⟨by decide, ?_, List.mem_cons.mpr (Or.inl rfl), by decide, ?_⟩
  · exact c9_private_directories.1 "app" ["tsx"] [] [] "_private" [("page.tsx", .file)]
      (by decide)
  · exact c9_private_directories.2.1 "app" ["tsx"] [("%5Fpub", FsEntry.directory [])]
      "%5Fpub" [] (List.mem_cons.mpr (Or.inl rfl)) (by decide)

/- ### LoaderTree and the parallel-route-aware merge -/

/-- The rendering-facing `LoaderTree`: a segment label, the insertion-ordered
parallel-route slot map, and a `Components` snapshot. -/
inductive LoaderTree where
  | mk (segment : String) (parallel_routes : List (String × LoaderTree)) (components : Components)

/-- Segment label of a `LoaderTree`. -/
def LoaderTree.segment : LoaderTree → String
  | .mk s _ _ => s

/-- Parallel-route slot map of a `LoaderTree`. -/
def LoaderTree.parallel_routes : LoaderTree → List (String × LoaderTree)
  | .mk _ p _ => p

/-- Components of a `LoaderTree`. -/
def LoaderTree.components : LoaderTree → Components
  | .mk _ _ c => c

/-- `IndexMap::get`: first (only) entry with the given key. -/
def lookupKey {α : Type} (k : String) : List (String × α) → Option α
  | [] => none
  | (k', v) :: rest => if k' = k then some v else lookupKey k rest

mutual

/-- `merge_loader_trees`: the segment is `tree1`'s if non-empty else
`tree2`'s, the slot maps are unioned via `add_parallel_route`, and the
components are merged left-biased. -/
def merge_loader_trees : LoaderTree → LoaderTree → LoaderTree
  | .mk s1 pr1 c1, .mk s2 pr2 c2 =>
    LoaderTree.mk (if s1 ≠ "" then s1 else s2)
      (mergeParallelRoutes pr1 pr2)
      (Components.merge c1 c2)
termination_by _ t2 => (sizeOf t2, 0)

/-- The loop of `merge_loader_trees` feeding `tree2`'s slots one by one into
`add_parallel_route`. -/
def mergeParallelRoutes (pr1 : List (String × LoaderTree)) :
    List (String × LoaderTree) → List (String × LoaderTree)
  | [] => pr1
  | (k, t) :: rest => mergeParallelRoutes (add_parallel_route pr1 k t) rest
termination_by l => (sizeOf l, 0)

/-- `add_parallel_route`: an occupied slot is merged in place, a vacant slot
is inserted at the end (the `IndexMap` entry API). -/
def add_parallel_route (result : List (String × LoaderTree)) (key : String)
    (loader_tree : LoaderTree) : List (String × LoaderTree) :=
  match result with
  | [] => [(key, loader_tree)]
  | (k', v) :: rest =>
    if k' = key then (k', merge_loader_trees v loader_tree) :: rest
    else (k', v) :: add_parallel_route rest key loader_tree
termination_by (sizeOf loader_tree + 1, sizeOf result)

end

/- ### C3: the merge algebra -/

theorem lookupKey_eq_none {α : Type} (k : String) (l : List (String × α))
    (h : k ∉ l.map Prod.fst) : lookupKey k l = none := by
  induction l with
  | nil => rfl
  | cons e rest ih =>
    obtain ⟨k', v⟩ := e
    simp only [List.map_cons, List.mem_cons] at h
    push_neg at h
    rw [lookupKey, if_neg (fun hh => h.1 hh.symm)]
    exact ih h.2

theorem lookup_add_parallel_route (pr : List (String × LoaderTree)) (k : String)
    (t : LoaderTree) (k' : String) :
    lookupKey k' (add_parallel_route pr k t) =
      if k' = k then
        match lookupKey k pr with
        | some v => some (merge_loader_trees v t)
        | none => some t
      else lookupKey k' pr := by
  induction pr with
  | nil =>
    by_cases h : k' = k
    · subst h
      simp [add_parallel_route, lookupKey]
    · simp [add_parallel_route, lookupKey, h, Ne.symm h]
  | cons e rest ih =>
    obtain ⟨k1, v⟩ := e
    rw [add_parallel_route]
    by_cases h1 : k1 = k
    · subst h1
      rw [if_pos rfl]
      by_cases h2 : k' = k1
      · subst h2
        simp [lookupKey]
      · have h2s : ¬ k1 = k' := fun hh => h2 hh.symm
        simp [lookupKey, h2, h2s]
    · rw [if_neg h1]
      by_cases h2 : k1 = k'
      · subst h2
        simp [lookupKey, h1]
      · rw [lookupKey, if_neg h2, ih]
        simp [lookupKey, h1, h2]

theorem lookup_mergeParallelRoutes (l2 : List (String × LoaderTree))
    (pr1 : List (String × LoaderTree)) (hn : (l2.map Prod.fst).Nodup) (k' : String) :
    lookupKey k' (mergeParallelRoutes pr1 l2) =
      match lookupKey k' pr1, lookupKey k' l2 with
      | some x, some y => some (merge_loader_trees x y)
      | some x, none => some x
      | none, some y => some y
      | none, none => none := by
  induction l2 generalizing pr1 with
  | nil =>
    rw [mergeParallelRoutes]
    cases lookupKey k' pr1 <;> rfl
  | cons e rest ih =>
    obtain ⟨k, t⟩ := e
    simp only [List.map_cons, List.nodup_cons] at hn
    rw [mergeParallelRoutes, ih _ hn.2, lookup_add_parallel_route]
    by_cases h : k' = k
    · subst h
      rw [if_pos rfl, lookupKey, if_pos rfl,
        lookupKey_eq_none k' rest (by simpa using hn.1)]
      cases lookupKey k' pr1 <;> rfl
    · rw [if_neg h, lookupKey, if_neg (fun hh => h hh.symm)]

/-- `Option::or` is left-biased: the first operand wins when present. -/
theorem option_or_isSome {α : Type} (o1 o2 : Option α) :
    o1.or o2 = if o1.isSome then o1 else o2 := by
  cases o1 <;> rfl

/-- **C3.** `merge_loader_trees a b`: the segment label is `a`'s if non-empty
else `b`'s; the components are merged field-by-field with `a`'s value winning
whenever both are present, except the metadata lists, which are concatenated
with `a`'s entries first (the option-valued manifest is left-biased); and the
slot map is the union of both maps, recursively merging on key collision. -/
theorem c3_merge_loader_trees (a b : LoaderTree)
    (hn : (b.parallel_routes.map Prod.fst).Nodup) :
    (merge_loader_trees a b).segment =
      (if a.segment ≠ "" then a.segment else b.segment)
    ∧ (merge_loader_trees a b).components =
        Components.merge a.components b.components
    ∧ (∀ ca cb : Components,
        (Components.merge ca cb).page = (if ca.page.isSome then ca.page else cb.page)
        ∧ (Components.merge ca cb).layout = (if ca.layout.isSome then ca.layout else cb.layout)
        ∧ (Components.merge ca cb).error = (if ca.error.isSome then ca.error else cb.error)
        ∧ (Components.merge ca cb).loading = (if ca.loading.isSome then ca.loading else cb.loading)
        ∧ (Components.merge ca cb).template = (if ca.template.isSome then ca.template else cb.template)
        ∧ (Components.merge ca cb).not_found = (if ca.not_found.isSome then ca.not_found else cb.not_found)
        ∧ (Components.merge ca cb).default = (if ca.default.isSome then ca.default else cb.default)
        ∧ (Components.merge ca cb).route = (if ca.route.isSome then ca.route else cb.route)
        ∧ (Components.merge ca cb).metadata.icon = ca.metadata.icon ++ cb.metadata.icon
        ∧ (Components.merge ca cb).metadata.apple = ca.metadata.apple ++ cb.metadata.apple
        ∧ (Components.merge ca cb).metadata.twitter = ca.metadata.twitter ++ cb.metadata.twitter
        ∧ (Components.merge ca cb).metadata.open_graph = ca.metadata.open_graph ++ cb.metadata.open_graph
        ∧ (Components.merge ca cb).metadata.favicon = ca.metadata.favicon ++ cb.metadata.favicon
        ∧ (Components.merge ca cb).metadata.manifest =
            (if ca.metadata.manifest.isSome then ca.metadata.manifest else cb.metadata.manifest))
    ∧ (∀ k : String,
        lookupKey k (merge_loader_trees a b).parallel_routes =
          match lookupKey k a.parallel_routes, lookupKey k b.parallel_routes with
          | some x, some y => some (merge_loader_trees x y)
          | some x, none => some x
          | none, some y => some y
          | none, none => none) := by
  obtain ⟨s1, pr1, c1⟩ := a
  obtain ⟨s2, pr2, c2⟩ := b
  rw [LoaderTree.parallel_routes] at hn
  refine ⟨?_, ?_, ?_, ?_⟩
  · rw [merge_loader_trees, LoaderTree.segment, LoaderTree.segment, LoaderTree.segment]
  · rw [merge_loader_trees, LoaderTree.components, LoaderTree.components,
      LoaderTree.components]
  · intro ca cb
    simp [Components.merge, Metadata.merge, option_or_isSome]
  · intro k
    rw [merge_loader_trees, LoaderTree.parallel_routes, LoaderTree.parallel_routes,
      LoaderTree.parallel_routes]
    exact lookup_mergeParallelRoutes pr2 pr1 hn k

/-- Witness for C3 at concrete trees: the colliding slot `children` is merged
recursively, the fresh slot `modal` is inserted, and `a`'s non-empty segment
wins. -/
theorem c3_merge_loader_trees_witness :
    (((LoaderTree.mk "b"
        [("children", LoaderTree.mk "" [] Components.empty),
          ("modal", LoaderTree.mk "__PAGE__" [] Components.empty)]
        Components.empty).parallel_routes.map Prod.fst).Nodup)
    ∧ lookupKey "children"
        (merge_loader_trees
          (LoaderTree.mk "a"
            [("children", LoaderTree.mk "__PAGE__" [] Components.empty)] Components.empty)
          (LoaderTree.mk "b"
            [("children", LoaderTree.mk "" [] Components.empty),
              ("modal", LoaderTree.mk "__PAGE__" [] Components.empty)]
            Components.empty)).parallel_routes =
        some (merge_loader_trees (LoaderTree.mk "__PAGE__" [] Components.empty)
          (LoaderTree.mk "" [] Components.empty))
    ∧ lookupKey "modal"
        (merge_loader_trees
          (LoaderTree.mk "a"
            [("children", LoaderTree.mk "__PAGE__" [] Components.empty)] Components.empty)
          (LoaderTree.mk "b"
            [("children", LoaderTree.mk "" [] Components.empty),
              ("modal", LoaderTree.mk "__PAGE__" [] Components.empty)]
            Components.empty)).parallel_routes =
        some (LoaderTree.mk "__PAGE__" [] Components.empty)
    ∧ (merge_loader_trees
        (LoaderTree.mk "a"
          [("children", LoaderTree.mk "__PAGE__" [] Components.empty)] Components.empty)
        (LoaderTree.mk "b"
          [("children", LoaderTree.mk "" [] Components.empty),
            ("modal", LoaderTree.mk "__PAGE__" [] Components.empty)]
          Components.empty)).segment = "a" := by
  refine ⟨by decide, ?_, ?_, ?_⟩
  · exact (c3_merge_loader_trees _ _ (by decide)).2.2.2 "children"
  · exact (c3_merge_loader_trees _ _ (by decide)).2.2.2 "modal"
  · exact (c3_merge_loader_trees _ _ (by decide)).1

/- ### Entrypoints, issues, and the registration conflict policy -/

/-- Severity of a diagnostic issue (`IssueSeverity`); the conflict policy
only ever emits `error`. -/
inductive IssueSeverity where
  | error
  | warning
deriving DecidableEq, Repr

/-- A `DirectoryTreeIssue`: severity, originating app directory, message. -/
structure Issue where
  severity : IssueSeverity
  app_dir : FSPath
  message : String
deriving DecidableEq, Repr

/-- An `Entrypoint`: a resolved page (with loader tree) or route handler. -/
inductive Entrypoint where
  | AppPage (original_name : String) (loader_tree : LoaderTree)
  | AppRoute (original_name : String) (path : FSPath)

/-- In-place value replacement at a key (`IndexMap` occupied-entry update:
the position and key are kept). -/
def updateKey {α : Type} (k : String) (v : α) : List (String × α) → List (String × α)
  | [] => []
  | (k', v') :: rest => if k' = k then (k', v) :: rest else (k', v') :: updateKey k v rest

/-- `add_app_page`: vacant keys are appended; a colliding page with a
different original name is rejected with an error issue; with the same
original name the loader trees are merged; a colliding route rejects the
page with an error issue.  Returns the table plus the issues emitted. -/
def add_app_page (app_dir : String) (result : List (String × Entrypoint))
    (key : String) (original_name : String) (loader_tree : LoaderTree) :
    List (String × Entrypoint) × List Issue :=
  match lookupKey key result with
  | some (Entrypoint.AppPage existing_original_name existing_tree) =>
    if existing_original_name ≠ original_name then
      (result,
        [⟨IssueSeverity.error, app_dir,
          "Conflicting pages at " ++ key ++ ": " ++ existing_original_name ++ " and "
            ++ original_name⟩])
    else
      (updateKey key
        (Entrypoint.AppPage existing_original_name
          (merge_loader_trees existing_tree loader_tree)) result, [])
  | some (Entrypoint.AppRoute existing_original_name _) =>
    (result,
      [⟨IssueSeverity.error, app_dir,
        "Conflicting page and route at " ++ key ++ ": route at "
          ++ existing_original_name ++ " and page at " ++ original_name⟩])
  | none => (result ++ [(key, Entrypoint.AppPage original_name loader_tree)], [])

/-- `add_app_route`: vacant keys are appended; a colliding route keeps the
existing route (early return after the issue); a colliding page emits the
issue and then **falls through to the overwrite**, so the new route replaces
the page (there is no early return in that branch of the source). -/
def add_app_route (app_dir : String) (result : List (String × Entrypoint))
    (key : String) (original_name : String) (path : FSPath) :
    List (String × Entrypoint) × List Issue :=
  match lookupKey key result with
  | some (Entrypoint.AppPage existing_original_name _) =>
    (updateKey key (Entrypoint.AppRoute original_name path) result,
      [⟨IssueSeverity.error, app_dir,
        "Conflicting route and page at " ++ key ++ ": route at " ++ original_name
          ++ " and page at " ++ existing_original_name⟩])
  | some (Entrypoint.AppRoute existing_original_name _) =>
    (result,
      [⟨IssueSeverity.error, app_dir,
        "Conflicting routes at " ++ key ++ ": " ++ existing_original_name ++ " and "
          ++ original_name⟩])
  | none => (result ++ [(key, Entrypoint.AppRoute original_name path)], [])

/- ### C1: page/route collisions -/

theorem lookupKey_append_self {α : Type} (k : String) (v : α) (l : List (String × α))
    (h : lookupKey k l = none) : lookupKey k (l ++ [(k, v)]) = some v := by
  induction l with
  | nil => simp [lookupKey]
  | cons e rest ih =>
    obtain ⟨k1, v1⟩ := e
    rw [lookupKey] at h
    rw [List.cons_append, lookupKey]
    by_cases h1 : k1 = k
    · rw [if_pos h1] at h
      exact absurd h (by simp)
    · rw [if_neg h1] at h ⊢
      exact ih h

theorem lookupKey_updateKey_self {α : Type} (k : String) (v w : α) (l : List (String × α))
    (h : lookupKey k l = some w) : lookupKey k (updateKey k v l) = some v := by
  induction l with
  | nil => simp [lookupKey] at h
  | cons e rest ih =>
    obtain ⟨k1, v1⟩ := e
    rw [lookupKey] at h
    by_cases h1 : k1 = k
    · rw [updateKey, if_pos h1, lookupKey, if_pos h1]
    · rw [if_neg h1] at h
      rw [updateKey, if_neg h1, lookupKey, if_neg h1]
      exact ih h

/-- **C1 counterexample.** Registering a Page at `/` and then a Route at the
same path does *not* retain the first-registered entrypoint: the later Route
replaces the Page (the page-conflict branch of `add_app_route` has no early
return, so it falls through to the overwrite). -/
theorem c1_counterexample :
    (add_app_route "app"
      (add_app_page "app" [] "/" "/p" (LoaderTree.mk "__PAGE__" [] Components.empty)).1
      "/" "/r" "app/route.ts").1 =
      [("/", Entrypoint.AppRoute "/r" "app/route.ts")]
    ∧ ¬ (add_app_route "app"
        (add_app_page "app" [] "/" "/p" (LoaderTree.mk "__PAGE__" [] Components.empty)).1
        "/" "/r" "app/route.ts").1 =
        [("/", Entrypoint.AppPage "/p" (LoaderTree.mk "__PAGE__" [] Components.empty))] := by
  have heq : (add_app_route "app"
      (add_app_page "app" [] "/" "/p" (LoaderTree.mk "__PAGE__" [] Components.empty)).1
      "/" "/r" "app/route.ts").1 =
      [("/", Entrypoint.AppRoute "/r" "app/route.ts")] := rfl
  refine ⟨heq, fun h => ?_⟩
  rw [heq] at h
  simp at h

/-- **C1 (amended).** A Page and a Route at the same path, in either order,
emit exactly one error issue, and the table ends up holding the **Route**:
for Page-then-Route the later Route replaces the Page (first-writer-wins
does not hold in this direction), for Route-then-Page the existing Route is
retained. -/
theorem c1_page_route_conflict (app_dir key po ro rpath : String) (plt : LoaderTree)
    (tbl : List (String × Entrypoint)) (h : lookupKey key tbl = none) :
    ((add_app_page app_dir tbl key po plt).2 = []
      ∧ (add_app_route app_dir (add_app_page app_dir tbl key po plt).1 key ro rpath).2 =
          [⟨IssueSeverity.error, app_dir,
            "Conflicting route and page at " ++ key ++ ": route at " ++ ro
              ++ " and page at " ++ po⟩]
      ∧ lookupKey key
          (add_app_route app_dir (add_app_page app_dir tbl key po plt).1 key ro rpath).1 =
          some (Entrypoint.AppRoute ro rpath))
    ∧ ((add_app_route app_dir tbl key ro rpath).2 = []
      ∧ (add_app_page app_dir (add_app_route app_dir tbl key ro rpath).1 key po plt).2 =
          [⟨IssueSeverity.error, app_dir,
            "Conflicting page and route at " ++ key ++ ": route at " ++ ro
              ++ " and page at " ++ po⟩]
      ∧ lookupKey key
          (add_app_page app_dir (add_app_route app_dir tbl key ro rpath).1 key po plt).1 =
          some (Entrypoint.AppRoute ro rpath)) := by
  have e1 : add_app_page app_dir tbl key po plt =
      (tbl ++ [(key, Entrypoint.AppPage po plt)], []) := by
    rw [add_app_page, h]
  have hp : lookupKey key (tbl ++ [(key, Entrypoint.AppPage po plt)]) =
      some (Entrypoint.AppPage po plt) := lookupKey_append_self key _ tbl h
  have e2 : add_app_route app_dir (tbl ++ [(key, Entrypoint.AppPage po plt)]) key ro rpath =
      (updateKey key (Entrypoint.AppRoute ro rpath) (tbl ++ [(key, Entrypoint.AppPage po plt)]),
        [⟨IssueSeverity.error, app_dir,
          "Conflicting route and page at " ++ key ++ ": route at " ++ ro
            ++ " and page at " ++ po⟩]) := by
    rw [add_app_route, hp]
  have e3 : add_app_route app_dir tbl key ro rpath =
      (tbl ++ [(key, Entrypoint.AppRoute ro rpath)], []) := by
    rw [add_app_route, h]
  have hr : lookupKey key (tbl ++ [(key, Entrypoint.AppRoute ro rpath)]) =
      some (Entrypoint.AppRoute ro rpath) := lookupKey_append_self key _ tbl h
  have e4 : add_app_page app_dir (tbl ++ [(key, Entrypoint.AppRoute ro rpath)]) key po plt =
      (tbl ++ [(key, Entrypoint.AppRoute ro rpath)],
        [⟨IssueSeverity.error, app_dir,
          "Conflicting page and route at " ++ key ++ ": route at " ++ ro
            ++ " and page at " ++ po⟩]) := by
    rw [add_app_page, hr]
  refine ⟨⟨by rw [e1], by rw [e1, e2], ?_⟩, ⟨by rw [e3], by rw [e3, e4], ?_⟩⟩
  · rw [e1, e2]
    exact lookupKey_updateKey_self key _ _ _ hp
  · rw [e3, e4]
    exact hr

/-- Witness for C1 (amended) at a concrete fresh table. -/
theorem c1_page_route_conflict_witness :
    lookupKey "/" ([] : List (String × Entrypoint)) = none
    ∧ lookupKey "/"
        (add_app_route "app"
          (add_app_page "app" [] "/" "/p" (LoaderTree.mk "__PAGE__" [] Components.empty)).1
          "/" "/r" "app/route.ts").1 = some (Entrypoint.AppRoute "/r" "app/route.ts")
    ∧ lookupKey "/"
        (add_app_page "app"
          (add_app_route "app" [] "/" "/r" "app/route.ts").1
          "/" "/p" (LoaderTree.mk "__PAGE__" [] Components.empty)).1 =
        some (Entrypoint.AppRoute "/r" "app/route.ts") := by
  refine ⟨rfl, ?_, ?_⟩
  · exact (c1_page_route_conflict "app" "/" "/p" "/r" "app/route.ts"
      (LoaderTree.mk "__PAGE__" [] Components.empty) [] rfl).1.2.2
  · exact (c1_page_route_conflict "app" "/" "/p" "/r" "app/route.ts"
      (LoaderTree.mk "__PAGE__" [] Components.empty) [] rfl).2.2.2

/- ### Directory tree → entrypoints -/

/-- `is_parallel_route`: the segment is a parallel-route slot `@slot`. -/
def is_parallel_route (name : String) : Bool :=
  strStartsWith name "@"

/-- `match_parallel_route`: strip the leading `@` of a slot name. -/
def match_parallel_route (name : String) : Option String :=
  match name.toList with
  | '@' :: rest => some (String.mk rest)
  | _ => none

/-- `str::ends_with` on the underlying characters. -/
def strEndsWith (s suf : String) : Bool :=
  suf.toList.isSuffixOf s.toList

/-- Modelled from the spec: `get_next_package(app_dir)` lives in
`next_import_map.rs`, which is not among the provided sources; it resolves
the installed `next` package directory for the project owning the app
directory.  Only the fact that it is a fixed path outside the app directory
matters here. -/
def get_next_package (app_dir : String) : String :=
  app_dir ++ "/../node_modules/next"

/-- Re-wrapping of one child entrypoint at the parent level (the body of the
`for (full_path, entrypoint) in map.iter()` loop of
`directory_tree_to_entrypoints_internal`): pages are nested one level under
the matched slot (or `children`) unless the current level is itself a
parallel slot; routes are inserted directly. -/
def wrapChildEntry (app_dir directory_name : String) (curParallel : Bool)
    (parallel_route_key : Option String) (parentComps : Components)
    (st : List (String × Entrypoint) × List Issue)
    (full_path : String) (ep : Entrypoint) :
    List (String × Entrypoint) × List Issue :=
  match ep with
  | Entrypoint.AppPage original_name loader_tree =>
    if curParallel then
      let r := add_app_page app_dir st.1 full_path original_name loader_tree
      (r.1, st.2 ++ r.2)
    else
      let key := parallel_route_key.getD "children"
      let child_loader_tree := LoaderTree.mk directory_name [(key, loader_tree)]
        parentComps.without_leafs
      let r := add_app_page app_dir st.1 full_path original_name child_loader_tree
      (r.1, st.2 ++ r.2)
  | Entrypoint.AppRoute original_name path =>
    let r := add_app_route app_dir st.1 full_path original_name path
    (r.1, st.2 ++ r.2)

mutual

/-- `directory_tree_to_entrypoints_internal`: register the page, default,
route and (at the root only) not-found entrypoints of this directory, then
recurse into every subdirectory, re-wrapping the returned entries.  Returns
the insertion-ordered table plus every issue emitted in this subtree. -/
def directory_tree_to_entrypoints_internal (app_dir : String) (directory_name : String)
    (tree : DirectoryTree) ( path_p : String) (orig_p : String) :
    List (String × Entrypoint) × List Issue :=
  match tree with
  | .mk subdirectories components =>
    let current_level_is_parallel_route := is_parallel_route directory_name
    let st0 : List (String × Entrypoint) × List Issue := ([], [])
    let st1 :=
      match components.page with
      | some page =>
        let r := add_app_page app_dir st0.1 path_p orig_p
          (if current_level_is_parallel_route then
            LoaderTree.mk "__PAGE__" [] { Components.empty with page := some page }
          else
            LoaderTree.mk directory_name
              [("children", LoaderTree.mk "__PAGE__" []
                { Components.empty with page := some page })]
              components.without_leafs)
        (r.1, st0.2 ++ r.2)
      | none => st0
    let st2 :=
      match components.default with
      | some defaultFile =>
        let r := add_app_page app_dir st1.1 path_p orig_p
          (if current_level_is_parallel_route then
            LoaderTree.mk "__DEFAULT__" []
              { Components.empty with default := some defaultFile }
          else
            LoaderTree.mk directory_name
              [("children", LoaderTree.mk "__DEFAULT__" []
                { Components.empty with default := some defaultFile })]
              components.without_leafs)
        (r.1, st1.2 ++ r.2)
      | none => st1
    let st3 :=
      match components.route with
      | some routeFile =>
        let r := add_app_route app_dir st2.1 path_p orig_p routeFile
        (r.1, st2.2 ++ r.2)
      | none => st2
    let st4 :=
      if path_p = "/" then
        match components.not_found with
        | some _ =>
          let tree0 := LoaderTree.mk directory_name
            [("children", LoaderTree.mk "__DEFAULT__" []
              { Components.empty with
                default := some (get_next_package app_dir
                  ++ "/dist/client/components/parallel-route-default.js") })]
            components.without_leafs
          let r1 := add_app_page app_dir st3.1 "/not-found" "/not-found" tree0
          let r2 := add_app_page app_dir r1.1 "/_not-found" "/_not-found" tree0
          (r2.1, st3.2 ++ r1.2 ++ r2.2)
        | none => st3
      else st3
    dtteiSubdirs app_dir directory_name current_level_is_parallel_route components
       path_p subdirectories st4
termination_by (sizeOf tree, 1)

/-- The subdirectory loop of `directory_tree_to_entrypoints_internal`:
route groups `(name)` and parallel slots `@slot` do not extend the URL
path, other names append a segment; every child entry is merged back via
`wrapChildEntry`. -/
def dtteiSubdirs (app_dir directory_name : String) (curParallel : Bool)
    (parentComps : Components) ( path_p : String)
    (subs : List (String × DirectoryTree))
    (st : List (String × Entrypoint) × List Issue) :
    List (String × Entrypoint) × List Issue :=
  match subs with
  | [] => st
  | (subdir_name, subdirectory) :: rest =>
    let is_route_group := strStartsWith subdir_name "(" && strEndsWith subdir_name ")"
    let parallel_route_key := match_parallel_route subdir_name
    let newPath :=
      if is_route_group || parallel_route_key.isSome then path_p
      else if path_p = "/" then "/" ++ subdir_name
      else path_p ++ "/" ++ subdir_name
    let child := directory_tree_to_entrypoints_internal app_dir subdir_name subdirectory
      newPath newPath
    let st1 := (st.1, st.2 ++ child.2)
    let st2 := child.1.foldl
      (fun s e => wrapChildEntry app_dir directory_name curParallel parallel_route_key
        parentComps s e.1 e.2) st1
    dtteiSubdirs app_dir directory_name curParallel parentComps path_p rest st2
termination_by (sizeOf subs, 0)

end

/-- `directory_tree_to_entrypoints`: resolution starts at the root with empty
segment name and `/` as both the path and original-name prefixes. -/
def directory_tree_to_entrypoints (app_dir : String) (directory_tree : DirectoryTree) :
    List (String × Entrypoint) × List Issue :=
  directory_tree_to_entrypoints_internal app_dir "" directory_tree "/" "/"

/-- `get_entrypoints`: build the directory tree, then resolve it. -/
def get_entrypoints (app_dir : String) (pageExts : List String)
    (entries : List (String × FsEntry)) : List (String × Entrypoint) × List Issue :=
  directory_tree_to_entrypoints app_dir (get_directory_tree app_dir pageExts entries)

/- ### C4: shape of the page loader tree -/

/-- **C4.** If a directory has a page file, the registered LoaderTree is a
bare `__PAGE__` leaf when the current segment is a parallel-route slot, and
otherwise the leaf is nested one level under slot `children` with the
non-leaf components on the outer node; consequently `app/@modal/page.tsx`
plus `app/page.tsx` resolve at `/` to a single Page whose slots are exactly
`children` and `modal`, each holding a page loader tree. -/
theorem c4_page_entry_shape :
    (∀ (app_dir directory_name path_p orig_p : String) (c : Components) (p : FSPath),
        c.page = some p → c.default = none → c.route = none →
        (path_p = "/" → c.not_found = none) →
        directory_tree_to_entrypoints_internal app_dir directory_name
            (DirectoryTree.mk [] c) path_p orig_p =
          ([(path_p, Entrypoint.AppPage orig_p
              (if is_parallel_route directory_name then
                LoaderTree.mk "__PAGE__" [] { Components.empty with page := some p }
              else
                LoaderTree.mk directory_name
                  [("children", LoaderTree.mk "__PAGE__" []
                    { Components.empty with page := some p })]
                  c.without_leafs))], []))
    ∧ directory_tree_to_entrypoints "app"
        (DirectoryTree.mk
          [("@modal", DirectoryTree.mk []
            { Components.empty with page := some "app/@modal/page.tsx" })]
          { Components.empty with page := some "app/page.tsx" }) =
        ([("/", Entrypoint.AppPage "/"
          (LoaderTree.mk ""
            [("children", LoaderTree.mk "__PAGE__" []
                { Components.empty with page := some "app/page.tsx" }),
              ("modal", LoaderTree.mk "__PAGE__" []
                { Components.empty with page := some "app/@modal/page.tsx" })]
            Components.empty))], []) := by
  constructor
  · intro app_dir directory_name path_p orig_p c p h1 h2 h3 h4
    by_cases hp : path_p = "/"
    · simp only [directory_tree_to_entrypoints_internal, h1, h2, h3, hp, h4 hp,
        add_app_page, lookupKey, dtteiSubdirs, List.nil_append, if_true]
    · simp only [directory_tree_to_entrypoints_internal, h1, h2, h3, hp,
        add_app_page, lookupKey, dtteiSubdirs, List.nil_append, if_false]
  · simp [directory_tree_to_entrypoints, directory_tree_to_entrypoints_internal, dtteiSubdirs,
      wrapChildEntry, add_app_page, add_app_route, merge_loader_trees, mergeParallelRoutes,
      add_parallel_route, lookupKey, updateKey, is_parallel_route, match_parallel_route,
      strStartsWith, strEndsWith, Components.without_leafs, Components.merge, Metadata.merge,
      Components.empty, Metadata.empty, List.isPrefixOf, List.isSuffixOf]

/-- Witness for C4 at a parallel-slot segment with a concrete page file. -/
theorem c4_page_entry_shape_witness :
    ({ Components.empty with page := some "app/@modal/page.tsx" } : Components).page =
        some "app/@modal/page.tsx"
    ∧ ({ Components.empty with page := some "app/@modal/page.tsx" } : Components).default = none
    ∧ ({ Components.empty with page := some "app/@modal/page.tsx" } : Components).route = none
    ∧ ("/x" : String) ≠ "/"
    ∧ directory_tree_to_entrypoints_internal "app" "@modal"
        (DirectoryTree.mk [] { Components.empty with page := some "app/@modal/page.tsx" })
        "/x" "/x" =
      ([("/x", Entrypoint.AppPage "/x"
          (if is_parallel_route "@modal" then
            LoaderTree.mk "__PAGE__" []
              { Components.empty with page := some "app/@modal/page.tsx" }
          else
            LoaderTree.mk "@modal"
              [("children", LoaderTree.mk "__PAGE__" []
                { Components.empty with page := some "app/@modal/page.tsx" })]
              ({ Components.empty with page := some "app/@modal/page.tsx" } : Components).without_leafs))],
        []) := by
  refine ⟨rfl, rfl, rfl, by decide, ?_⟩
  exact c4_page_entry_shape.1 "app" "@modal" "/x" "/x"
    { Components.empty with page := some "app/@modal/page.tsx" } "app/@modal/page.tsx"
    rfl rfl rfl (fun hh => absurd hh (by decide))

/- ### C5: the root not-found entrypoints -/

/-- **C5.** Only at the root: a not-found file synthesizes a loader tree
around the built-in fallback default component and registers the very same
tree under both `/not-found` and `/_not-found` (two Page entrypoints with
structurally identical trees); at any non-root prefix, a directory
contributing no page/default/route creates no entrypoint at all, whatever
its not-found (or other non-leaf) components are. -/
theorem c5_root_not_found :
    (∀ (app_dir directory_name orig_p : String) (c : Components) (nf : FSPath),
        c.not_found = some nf → c.page = none → c.default = none → c.route = none →
        directory_tree_to_entrypoints_internal app_dir directory_name
            (DirectoryTree.mk [] c) "/" orig_p =
          ([("/not-found", Entrypoint.AppPage "/not-found"
              (LoaderTree.mk directory_name
                [("children", LoaderTree.mk "__DEFAULT__" []
                  { Components.empty with
                    default := some (get_next_package app_dir
                      ++ "/dist/client/components/parallel-route-default.js") })]
                c.without_leafs)),
            ("/_not-found", Entrypoint.AppPage "/_not-found"
              (LoaderTree.mk directory_name
                [("children", LoaderTree.mk "__DEFAULT__" []
                  { Components.empty with
                    default := some (get_next_package app_dir
                      ++ "/dist/client/components/parallel-route-default.js") })]
                c.without_leafs))], []))
    ∧ (∀ (app_dir directory_name path_p orig_p : String) (c : Components),
        path_p ≠ "/" → c.page = none → c.default = none → c.route = none →
        directory_tree_to_entrypoints_internal app_dir directory_name
            (DirectoryTree.mk [] c) path_p orig_p = ([], []))
    ∧ directory_tree_to_entrypoints "app"
        (DirectoryTree.mk [] { Components.empty with not_found := some "app/not-found.tsx" }) =
        ([("/not-found", Entrypoint.AppPage "/not-found"
            (LoaderTree.mk ""
              [("children", LoaderTree.mk "__DEFAULT__" []
                { Components.empty with
                  default := some ("app/../node_modules/next/dist/client/components/parallel-route-default.js") })]
              { Components.empty with not_found := some "app/not-found.tsx" })),
          ("/_not-found", Entrypoint.AppPage "/_not-found"
            (LoaderTree.mk ""
              [("children", LoaderTree.mk "__DEFAULT__" []
                { Components.empty with
                  default := some ("app/../node_modules/next/dist/client/components/parallel-route-default.js") })]
              { Components.empty with not_found := some "app/not-found.tsx" }))], []) := by
  refine ⟨?_, ?_, ?_⟩
  · intro app_dir directory_name orig_p c nf hnf h1 h2 h3
    simp only [directory_tree_to_entrypoints_internal, h1, h2, h3, hnf,
      add_app_page, lookupKey, dtteiSubdirs, List.nil_append, if_pos rfl]
    simp
  · intro app_dir directory_name path_p orig_p c hp h1 h2 h3
    simp only [directory_tree_to_entrypoints_internal, h1, h2, h3, if_neg hp, dtteiSubdirs]
  · simp [directory_tree_to_entrypoints, directory_tree_to_entrypoints_internal, dtteiSubdirs,
      add_app_page, lookupKey, get_next_package, Components.without_leafs, Components.empty,
      Metadata.empty]

/-- Witness for C5: concrete root and non-root instances. -/
theorem c5_root_not_found_witness :
    ({ Components.empty with not_found := some "app/not-found.tsx" } : Components).not_found =
        some "app/not-found.tsx"
    ∧ directory_tree_to_entrypoints_internal "app" ""
        (DirectoryTree.mk [] { Components.empty with not_found := some "app/not-found.tsx" })
        "/" "/" =
      ([("/not-found", Entrypoint.AppPage "/not-found"
          (LoaderTree.mk ""
            [("children", LoaderTree.mk "__DEFAULT__" []
              { Components.empty with
                default := some (get_next_package "app"
                  ++ "/dist/client/components/parallel-route-default.js") })]
            ({ Components.empty with not_found := some "app/not-found.tsx" } : Components).without_leafs)),
        ("/_not-found", Entrypoint.AppPage "/_not-found"
          (LoaderTree.mk ""
            [("children", LoaderTree.mk "__DEFAULT__" []
              { Components.empty with
                default := some (get_next_package "app"
                  ++ "/dist/client/components/parallel-route-default.js") })]
            ({ Components.empty with not_found := some "app/not-found.tsx" } : Components).without_leafs))], [])
    ∧ ("/deep" : String) ≠ "/"
    ∧ directory_tree_to_entrypoints_internal "app" "x"
        (DirectoryTree.mk [] { Components.empty with not_found := some "app/x/not-found.tsx" })
        "/deep" "/deep" = ([], []) := by
  refine ⟨rfl, ?_, by decide, ?_⟩
  · exact c5_root_not_found.1 "app" "" "/"
      { Components.empty with not_found := some "app/not-found.tsx" } "app/not-found.tsx"
      rfl rfl rfl rfl
  · exact c5_root_not_found.2.1 "app" "x" "/deep" "/deep"
      { Components.empty with not_found := some "app/x/not-found.tsx" }
      (by decide) rfl rfl rfl

/- ### Global metadata (C7) -/

/-- The root-only `GlobalMetadata` singletons: each slot is an `Option`, so
it holds at most one item by construction. -/
structure GlobalMetadata where
  favicon : Option MetadataItem
  robots : Option MetadataItem
  sitemap : Option MetadataItem
deriving DecidableEq, Repr

/-- `GlobalMetadata::default()`. -/
def GlobalMetadata.empty : GlobalMetadata := ⟨none, none, none⟩

/-- Slot projection by stem name (`favicon`/`sitemap`/`robots`). -/
def GlobalMetadata.slot (md : GlobalMetadata) (stem : String) : Option MetadataItem :=
  if stem = "favicon" then md.favicon
  else if stem = "sitemap" then md.sitemap
  else md.robots

/-- One entry of the loop of `get_global_metadata`: for a `favicon`,
`sitemap` or `robots` stem the slot is overwritten by a dynamic item when
the extension is a page extension, and then overwritten again by a static
item when the extension is in the static table — so a static match always
wins over a dynamic match for the same file. -/
def ggmStep (app_dir : String) (pageExts : List String) (md : GlobalMetadata)
    (basename : String) (entry : FsEntry) : GlobalMetadata :=
  match entry with
  | .file =>
    match splitOnceDot basename with
    | some (stem, ext) =>
      if stem = "favicon" ∨ stem = "sitemap" ∨ stem = "robots" then
        let cur := md.slot stem
        let cur :=
          if pageExts.contains ext then
            some (MetadataItem.dynamic (app_dir ++ "/" ++ basename))
          else cur
        let cur :=
          if ((staticGlobalMetadata stem).getD []).contains ext then
            some (MetadataItem.static (app_dir ++ "/" ++ basename))
          else cur
        if stem = "favicon" then { md with favicon := cur }
        else if stem = "sitemap" then { md with sitemap := cur }
        else { md with robots := cur }
      else md
    | none => md
  | _ => md

/-- `get_global_metadata`: fold the root directory's entries over `ggmStep`
(no recursion, no numeric handling). -/
def get_global_metadata (app_dir : String) (pageExts : List String)
    (entries : List (String × FsEntry)) : GlobalMetadata :=
  entries.foldl (fun md e => ggmStep app_dir pageExts md e.1 e.2) GlobalMetadata.empty

theorem splitDotList_concat (pre : List Char) (t : List Char) (h : '.' ∉ pre) :
    splitDotList (pre ++ '.' :: t) = some (pre, t) := by
  induction pre with
  | nil => simp [splitDotList]
  | cons c cs ih =>
    simp only [List.mem_cons, not_or] at h
    rw [List.cons_append, splitDotList, if_neg (fun hh => h.1 hh.symm), ih h.2]

theorem splitOnceDot_concat (stem ext : String) (h : '.' ∉ stem.toList) :
    splitOnceDot (stem ++ "." ++ ext) = some (stem, ext) := by
  have hdata : (stem ++ "." ++ ext).toList = stem.toList ++ '.' :: ext.toList := by
    simp [String.toList]
  rw [splitOnceDot, hdata, splitDotList_concat stem.toList ext.toList h]
  rfl

/-- **C7.** Global metadata keeps at most one item per slot (each slot is an
`Option`), and whenever one file's extension matches both a page extension
and the slot's static extension table, the static match overwrites the
dynamic one (the static assignment runs second); concretely `favicon.ico`
under page extensions `["ico", "tsx"]` yields a static favicon, while
`robots.tsx` yields a dynamic robots item. -/
theorem c7_global_metadata_static_overrides :
    (∀ (app_dir : String) (pageExts : List String) (entries : List (String × FsEntry))
        (stem ext : String),
        (stem = "favicon" ∨ stem = "sitemap" ∨ stem = "robots") →
        pageExts.contains ext = true →
        ((staticGlobalMetadata stem).getD []).contains ext = true →
        (get_global_metadata app_dir pageExts
            (entries ++ [(stem ++ "." ++ ext, FsEntry.file)])).slot stem =
          some (MetadataItem.static (app_dir ++ "/" ++ (stem ++ "." ++ ext))))
    ∧ get_global_metadata "app" ["ico", "tsx"] [("favicon.ico", FsEntry.file)] =
        ⟨some (MetadataItem.static "app/favicon.ico"), none, none⟩
    ∧ get_global_metadata "app" ["tsx"] [("robots.tsx", FsEntry.file)] =
        ⟨none, some (MetadataItem.dynamic "app/robots.tsx"), none⟩ := by
  refine ⟨?_, by decide, by decide⟩
  intro app_dir pageExts entries stem ext hstem hdyn hstat
  have hdyn2 : ext ∈ pageExts := by simpa using hdyn
  have hstat2 : ext ∈ (staticGlobalMetadata stem).getD [] := by simpa using hstat
  rcases hstem with rfl | rfl | rfl
  · rw [get_global_metadata, List.foldl_append, List.foldl_cons, List.foldl_nil]
    simp only [ggmStep, splitOnceDot_concat "favicon" ext (by decide)]
    simp [GlobalMetadata.slot, hdyn2, hstat2]
  · rw [get_global_metadata, List.foldl_append, List.foldl_cons, List.foldl_nil]
    simp only [ggmStep, splitOnceDot_concat "sitemap" ext (by decide)]
    simp [GlobalMetadata.slot, hdyn2, hstat2]
  · rw [get_global_metadata, List.foldl_append, List.foldl_cons, List.foldl_nil]
    simp only [ggmStep, splitOnceDot_concat "robots" ext (by decide)]
    simp [GlobalMetadata.slot, hdyn2, hstat2]

/-- Witness for C7: the favicon slot with an extension matching both tables. -/
theorem c7_global_metadata_static_overrides_witness :
    (("favicon" : String) = "favicon" ∨ ("favicon" : String) = "sitemap"
        ∨ ("favicon" : String) = "robots")
    ∧ (["ico", "tsx"] : List String).contains "ico" = true
    ∧ ((staticGlobalMetadata "favicon").getD []).contains "ico" = true
    ∧ (get_global_metadata "app" ["ico", "tsx"]
        ([] ++ [("favicon" ++ "." ++ "ico", FsEntry.file)])).slot "favicon" =
        some (MetadataItem.static ("app" ++ "/" ++ ("favicon" ++ "." ++ "ico"))) := by
  refine ⟨Or.inl rfl, by decide, by decide, ?_⟩
  exact c7_global_metadata_static_overrides.1 "app" ["ico", "tsx"] [] "favicon" "ico"
    (Or.inl rfl) (by decide) (by decide)

/- ### Asset emission (C8) -/

/-- Modelled from the spec: `FileSystemPath::is_inside_ref` of the external
file-system layer — a path is inside a root when it equals the root or
extends it past a `/` boundary. -/
def isInside (p root : String) : Bool :=
  p == root || (root ++ "/").toList.isPrefixOf p.toList

/-- Modelled from the spec: `turbo_tasks_fs::rebase` — substitute the target
root for the source root, preserving the suffix. -/
def rebase (p src dst : String) : String :=
  dst ++ String.mk (p.toList.drop src.toList.length)

/-- The per-asset decision of `emit_assets`: write verbatim at the identity
path inside `node_root`; else rebase into the client output root when inside
`client_relative_path`; else no write at all. -/
def emitTargetPath (assetPath node_root client_relative_path client_output_path : String) :
    Option String :=
  if isInside assetPath node_root then some assetPath
  else if isInside assetPath client_relative_path then
    some (rebase assetPath client_relative_path client_output_path)
  else none

/- ### C8: the emission decision -/

/-- **C8.** Exactly one decision per asset: inside `node_root` the asset is
written verbatim at its identity path; otherwise, inside
`client_relative_root` the path is rebased by swapping the
`client_relative_root` prefix for the `client_output_root` prefix with the
suffix preserved; otherwise nothing is written.  Concretely
`client_relative_root = /cr`, `client_output_root = /out/_next` send
`/cr/x/y.js` to `/out/_next/x/y.js`, and an asset outside both roots
produces no write. -/
theorem c8_emit_decision :
    (∀ (p n cr co : String), isInside p n = true →
        emitTargetPath p n cr co = some p)
    ∧ (∀ (rest n cr co : String), isInside (cr ++ "/" ++ rest) n = false →
        emitTargetPath (cr ++ "/" ++ rest) n cr co = some (co ++ "/" ++ rest))
    ∧ (∀ (p n cr co : String), isInside p n = false → isInside p cr = false →
        emitTargetPath p n cr co = none)
    ∧ emitTargetPath "/cr/x/y.js" "/n" "/cr" "/out/_next" = some "/out/_next/x/y.js"
    ∧ emitTargetPath "/elsewhere/a.js" "/n" "/cr" "/out/_next" = none := by
  refine ⟨?_, ?_, ?_, by decide, by decide⟩
  · intro p n cr co h
    rw [emitTargetPath, if_pos h]
  · intro rest n cr co h
    have hin : isInside (cr ++ "/" ++ rest) cr = true := by
      rw [isInside]
      refine Bool.or_eq_true_iff.mpr (Or.inr ?_)
      rw [List.isPrefixOf_iff_prefix]
      have : (cr ++ "/" ++ rest).toList = (cr ++ "/").toList ++ rest.toList := by
        simp [String.toList]
      rw [this]
      exact List.prefix_append _ _
    rw [emitTargetPath, if_neg (by rw [h]; exact Bool.false_ne_true), if_pos hin]
    have hdrop : (cr ++ "/" ++ rest).toList.drop cr.toList.length = '/' :: rest.toList := by
      have : (cr ++ "/" ++ rest).toList = cr.toList ++ ('/' :: rest.toList) := by
        simp [String.toList]
      rw [this, List.drop_left]
    rw [rebase, hdrop]
    refine congrArg some ?_
    apply String.ext
    simp [String.toList]
  · intro p n cr co h1 h2
    rw [emitTargetPath, if_neg (by rw [h1]; exact Bool.false_ne_true),
      if_neg (by rw [h2]; exact Bool.false_ne_true)]

/-- Witness for C8 at concrete roots and suffix. -/
theorem c8_emit_decision_witness :
    isInside "/n/server/app.js" "/n" = true
    ∧ emitTargetPath "/n/server/app.js" "/n" "/cr" "/out/_next" = some "/n/server/app.js"
    ∧ isInside ("/cr" ++ "/" ++ "x/y.js") "/n" = false
    ∧ emitTargetPath ("/cr" ++ "/" ++ "x/y.js") "/n" "/cr" "/out/_next" =
        some ("/out/_next" ++ "/" ++ "x/y.js")
    ∧ isInside "/elsewhere/a.js" "/n" = false
    ∧ isInside "/elsewhere/a.js" "/cr" = false
    ∧ emitTargetPath "/elsewhere/a.js" "/n" "/cr" "/out/_next" = none := by
  refine ⟨by decide, ?_, by decide, ?_, by decide, by decide, ?_⟩
  · exact c8_emit_decision.1 "/n/server/app.js" "/n" "/cr" "/out/_next" (by decide)
  · exact c8_emit_decision.2.1 "x/y.js" "/n" "/cr" "/out/_next" (by decide)
  · exact c8_emit_decision.2.2.1 "/elsewhere/a.js" "/n" "/cr" "/out/_next"
      (by decide) (by decide)

/- ### The asset graph walker (C6) -/

/-- State of the graph walk: the visited set (a node is marked *before* its
references are followed, so diamonds and cycles are visited at most once)
and the output in emission order (a node is appended after its references
have been processed). -/
structure WalkState where
  visited : List Nat
  out : List Nat

/-- Modelled from the spec: the traversal of `all_assets_from_entries`
(`AdjacencyMap::visit` with `skip_duplicates`, then
`into_reverse_topological`, all in the external `turbo_tasks::graph`
crate): a depth-first walk following reference edges, skipping already
visited nodes, emitting each node after its references (reverse topological
emission).  `fuel` bounds the recursion depth; any fuel that is at least
the number of distinct nodes behaves like the unbounded traversal (see
`walk_spec_visit`). -/
def visit (refs : Nat → List Nat) : Nat → Nat → WalkState → WalkState
  | 0, _, s => s
  | fuel + 1, n, s =>
    if n ∈ s.visited then s
    else
      let s2 := (refs n).foldl (fun t m => visit refs fuel m t) ⟨n :: s.visited, s.out⟩
      ⟨s2.visited, s2.out ++ [n]⟩

/-- The walk over a list of pending nodes at fixed fuel. -/
def visitList (refs : Nat → List Nat) (fuel : Nat) (l : List Nat) (s : WalkState) :
    WalkState :=
  l.foldl (fun t m => visit refs fuel m t) s

/-- Modelled from the spec: `all_assets_from_entries` on a graph whose nodes
are the naturals below `bound` — walk from the entries and return the
emission order. -/
def all_assets_from_entries (refs : Nat → List Nat) (bound : Nat)
    (entries : List Nat) : List Nat :=
  (visitList refs bound entries ⟨[], []⟩).out

/-- Reference edge of the asset graph: `Edge refs a b` when `a references b`. -/
def Edge (refs : Nat → List Nat) (a b : Nat) : Prop := b ∈ refs a

/-- Reachability along reference edges. -/
def Reaches (refs : Nat → List Nat) : Nat → Nat → Prop :=
  Relation.ReflTransGen (Edge refs)

theorem visit_zero (refs : Nat → List Nat) (n : Nat) (s : WalkState) :
    visit refs 0 n s = s := rfl

theorem visit_succ (refs : Nat → List Nat) (fuel n : Nat) (s : WalkState) :
    visit refs (fuel + 1) n s =
      if n ∈ s.visited then s
      else
        ⟨(visitList refs fuel (refs n) ⟨n :: s.visited, s.out⟩).visited,
          (visitList refs fuel (refs n) ⟨n :: s.visited, s.out⟩).out ++ [n]⟩ := rfl

/-- The walk invariant: the visited list is duplicate-free and bounded, the
output is duplicate-free, everything emitted has been visited, and every
reference of an emitted node has been visited. -/
def WalkInv (refs : Nat → List Nat) (N : Nat) (s : WalkState) : Prop :=
  s.visited.Nodup ∧ (∀ x ∈ s.visited, x < N) ∧ s.out.Nodup
  ∧ (∀ x ∈ s.out, x ∈ s.visited)
  ∧ (∀ u ∈ s.out, ∀ v ∈ refs u, v ∈ s.visited)

/-- What one (multi-root) walk step guarantees: the visited list grows by a
fresh block `nv`, the output grows by a block `no` holding exactly the same
nodes, everything new is reachable from the roots, the invariant is
preserved, every root ends up visited, and (in an acyclic graph) the
no-edge-from-earlier-to-later ordering of the output is preserved. -/
def WalkConcl (refs : Nat → List Nat) (N : Nat) (roots : List Nat)
    (s s' : WalkState) : Prop :=
  (∃ nv no, s'.visited = nv ++ s.visited ∧ s'.out = s.out ++ no
    ∧ (∀ x ∈ nv, x ∉ s.visited)
    ∧ (∀ x, x ∈ nv ↔ x ∈ no)
    ∧ (∀ x ∈ nv, ∃ r ∈ roots, Reaches refs r x))
  ∧ WalkInv refs N s'
  ∧ (∀ r ∈ roots, r ∈ s'.visited)
  ∧ ((∀ u v, Edge refs u v → ¬ Reaches refs v u) →
      s.out.Pairwise (fun a b => b ∉ refs a) →
      s'.out.Pairwise (fun a b => b ∉ refs a))

theorem mem_of_nodup_bound (l : List Nat) (N : Nat) (hnd : l.Nodup)
    (hlt : ∀ x ∈ l, x < N) (hlen : N ≤ l.length) (n : Nat) (hn : n < N) :
    n ∈ l := by
  have hsub : l.toFinset ⊆ Finset.range N := by
    intro x hx
    simp only [List.mem_toFinset] at hx
    exact Finset.mem_range.mpr (hlt x hx)
  have hcard : (Finset.range N).card ≤ l.toFinset.card := by
    rw [List.toFinset_card_of_nodup hnd, Finset.card_range]
    exact hlen
  have heq : l.toFinset = Finset.range N := Finset.eq_of_subset_of_card_le hsub hcard
  have : n ∈ l.toFinset := heq ▸ Finset.mem_range.mpr hn
  simpa using this

/-- The identity step satisfies the walk conclusion when the root is already
visited. -/
theorem WalkConcl.of_id (refs : Nat → List Nat) (N : Nat) (roots : List Nat)
    (s : WalkState) (hinv : WalkInv refs N s) (hmem : ∀ r ∈ roots, r ∈ s.visited) :
    WalkConcl refs N roots s s := by
  refine ⟨⟨[], [], rfl, by simp, by simp, by simp, by simp⟩, hinv, hmem, fun _ hp => hp⟩

theorem walk_spec_list (refs : Nat → List Nat) (N : Nat) (fuel : Nat)
    (hv : ∀ (n : Nat) (s : WalkState), n < N → N ≤ fuel + s.visited.length →
      WalkInv refs N s → WalkConcl refs N [n] s (visit refs fuel n s)) :
    ∀ (l : List Nat) (s : WalkState), (∀ m ∈ l, m < N) →
      N ≤ fuel + s.visited.length → WalkInv refs N s →
      WalkConcl refs N l s (visitList refs fuel l s) := by
  intro l
  induction l with
  | nil =>
    intro s _ _ hinv
    exact WalkConcl.of_id refs N [] s hinv (by simp)
  | cons m ms ih =>
    intro s hl hthr hinv
    have h1 := hv m s (hl m (by simp)) hthr hinv
    obtain ⟨⟨nv1, no1, hvis1, hout1, hf1, hi1, hr1⟩, hinv1, hm1, hord1⟩ := h1
    have hthr1 : N ≤ fuel + (visit refs fuel m s).visited.length := by
      rw [hvis1, List.length_append]
      omega
    have h2 := ih (visit refs fuel m s) (fun x hx => hl x (by simp [hx])) hthr1 hinv1
    obtain ⟨⟨nv2, no2, hvis2, hout2, hf2, hi2, hr2⟩, hinv2, hm2, hord2⟩ := h2
    have heq : visitList refs fuel (m :: ms) s =
        visitList refs fuel ms (visit refs fuel m s) := rfl
    rw [heq]
    refine ⟨⟨nv2 ++ nv1, no1 ++ no2, ?_, ?_, ?_, ?_, ?_⟩, hinv2, ?_, ?_⟩
    · rw [hvis2, hvis1, List.append_assoc]
    · rw [hout2, hout1, List.append_assoc]
    · intro x hx
      rcases List.mem_append.mp hx with hx | hx
      · intro hxs
        exact hf2 x hx (by rw [hvis1]; exact List.mem_append.mpr (Or.inr hxs))
      · exact hf1 x hx
    · intro x
      simp only [List.mem_append]
      constructor
      · rintro (hx | hx)
        · exact Or.inr ((hi2 x).mp hx)
        · exact Or.inl ((hi1 x).mp hx)
      · rintro (hx | hx)
        · exact Or.inr ((hi1 x).mpr hx)
        · exact Or.inl ((hi2 x).mpr hx)
    · intro x hx
      rcases List.mem_append.mp hx with hx | hx
      · obtain ⟨r, hrm, hr⟩ := hr2 x hx
        exact ⟨r, by simp only [List.mem_cons]; exact Or.inr hrm, hr⟩
      · obtain ⟨r, hrm, hr⟩ := hr1 x hx
        have hrm2 : r = m := by simpa using hrm
        exact ⟨m, by simp, hrm2 ▸ hr⟩
    · intro r hr
      rcases List.mem_cons.mp hr with rfl | hr
      · have hm := hm1 r (by simp)
        rw [hvis2]
        exact List.mem_append.mpr (Or.inr hm)
      · exact hm2 r hr
    · intro hacyc hp
      exact hord2 hacyc (hord1 hacyc hp)

theorem walk_spec_visit (refs : Nat → List Nat) (N : Nat)
    (HB : ∀ u v, v ∈ refs u → v < N) :
    ∀ (fuel : Nat) (n : Nat) (s : WalkState), n < N → N ≤ fuel + s.visited.length →
      WalkInv refs N s → WalkConcl refs N [n] s (visit refs fuel n s) := by
  intro fuel
  induction fuel with
  | zero =>
    intro n s hn hthr hinv
    rw [visit_zero]
    apply WalkConcl.of_id refs N [n] s hinv
    intro r hr
    have hrn : r = n := by simpa using hr
    subst hrn
    exact mem_of_nodup_bound s.visited N hinv.1 hinv.2.1 (by omega) r hn
  | succ fuel ih =>
    intro n s hn hthr hinv
    rw [visit_succ]
    by_cases hmem : n ∈ s.visited
    · rw [if_pos hmem]
      apply WalkConcl.of_id refs N [n] s hinv
      intro r hr
      have hrn : r = n := by simpa using hr
      subst hrn
      exact hmem
    · rw [if_neg hmem]
      have hinv1 : WalkInv refs N (⟨n :: s.visited, s.out⟩ : WalkState) := by
        obtain ⟨h1, h2, h3, h4, h5⟩ := hinv
        refine ⟨List.nodup_cons.mpr ⟨hmem, h1⟩, ?_, h3, ?_, ?_⟩
        · intro x hx
          rcases List.mem_cons.mp hx with rfl | hx
          · exact hn
          · exact h2 x hx
        · intro x hx
          exact List.mem_cons.mpr (Or.inr (h4 x hx))
        · intro u hu v hv
          exact List.mem_cons.mpr (Or.inr (h5 u hu v hv))
      have hthr1 : N ≤ fuel + (⟨n :: s.visited, s.out⟩ : WalkState).visited.length := by
        simp only [List.length_cons]
        omega
      have hlist := walk_spec_list refs N fuel ih (refs n) ⟨n :: s.visited, s.out⟩
        (fun m hm => HB n m hm) hthr1 hinv1
      obtain ⟨⟨nv, no, hvis, hout, hfresh, hiff, hreach⟩, hinv2, hmems, hord⟩ := hlist
      refine ⟨⟨nv ++ [n], no ++ [n], ?_, ?_, ?_, ?_, ?_⟩, ?_, ?_, ?_⟩
      · rw [hvis, List.append_assoc]
        rfl
      · rw [hout, List.append_assoc]
      · intro x hx
        rcases List.mem_append.mp hx with hx | hx
        · exact fun hxs => hfresh x hx (List.mem_cons.mpr (Or.inr hxs))
        · have hxn : x = n := by simpa using hx
          subst hxn
          exact hmem
      · intro x
        simp only [List.mem_append, List.mem_singleton]
        exact or_congr (hiff x) Iff.rfl
      · intro x hx
        rcases List.mem_append.mp hx with hx | hx
        · obtain ⟨r, hrm, hr⟩ := hreach x hx
          exact ⟨n, by simp, Relation.ReflTransGen.head hrm hr⟩
        · have hxn : x = n := by simpa using hx
          subst hxn
          exact ⟨x, by simp, Relation.ReflTransGen.refl⟩
      · obtain ⟨i1, i2, i3, i4, i5⟩ := hinv2
        refine ⟨i1, i2, ?_, ?_, ?_⟩
        · rw [List.nodup_append]
          refine ⟨i3, by simp, ?_⟩
          intro a ha hb
          have han : a = n := by simpa using hb
          subst han
          rw [hout] at ha
          rcases List.mem_append.mp ha with ha | ha
          · exact hmem (hinv.2.2.2.1 a ha)
          · exact hfresh a ((hiff a).mpr ha) (by simp)
        · intro x hx
          rcases List.mem_append.mp hx with hx | hx
          · exact i4 x hx
          · have hxn : x = n := by simpa using hx
            subst hxn
            rw [hvis]
            exact List.mem_append.mpr (Or.inr (by simp))
        · intro u hu v hv
          rcases List.mem_append.mp hu with hu | hu
          · exact i5 u hu v hv
          · have hun : u = n := by simpa using hu
            subst hun
            exact hmems v hv
      · intro r hr
        have hrn : r = n := by simpa using hr
        subst hrn
        rw [hvis]
        exact List.mem_append.mpr (Or.inr (by simp))
      · intro hacyc hp
        have hp2 := hord hacyc hp
        rw [List.pairwise_append]
        refine ⟨hp2, by simp, ?_⟩
        intro a ha b hb
        have hbn : b = n := by simpa using hb
        subst hbn
        rw [hout] at ha
        rcases List.mem_append.mp ha with ha | ha
        · intro hcontra
          exact hmem (hinv.2.2.2.2 a ha b hcontra)
        · intro hcontra
          obtain ⟨r, hrm, hr⟩ := hreach a ((hiff a).mpr ha)
          exact hacyc a b hcontra (Relation.ReflTransGen.head hrm hr)

/-- A rank function decreasing along edges certifies acyclicity. -/
theorem acyclic_of_rank (refs : Nat → List Nat) (f : Nat → Nat)
    (h : ∀ u v, Edge refs u v → f v < f u) :
    ∀ u v, Edge refs u v → ¬ Reaches refs v u := by
  have mono : ∀ a b, Reaches refs a b → f b ≤ f a := by
    intro a b hr
    induction hr with
    | refl => exact le_refl _
    | tail hab hbc ih => exact le_trans (le_of_lt (h _ _ hbc)) ih
  intro u v he hr
  have h1 := mono v u hr
  have h2 := h u v he
  omega

/-- The diamond graph `entry → a, entry → b, a → c, b → c` with
`entry, a, b, c` numbered `0, 1, 2, 3`. -/
def diamondRefs : Nat → List Nat
  | 0 => [1, 2]
  | 1 => [3]
  | 2 => [3]
  | _ => []

/-- A two-node cycle, used to refute the unconditional ordering claim. -/
def cycRefs : Nat → List Nat
  | 0 => [1]
  | 1 => [0]
  | _ => []

theorem diamondRefs_lt : ∀ u v, v ∈ diamondRefs u → v < 4 := by
  intro u v h
  match u with
  | 0 => rcases (by simpa [diamondRefs] using h : v = 1 ∨ v = 2) with rfl | rfl <;> omega
  | 1 =>
    have : v = 3 := by simpa [diamondRefs] using h
    omega
  | 2 =>
    have : v = 3 := by simpa [diamondRefs] using h
    omega
  | n + 3 => simp [diamondRefs] at h

theorem diamondRefs_rank : ∀ u v, Edge diamondRefs u v → (4 - v) < (4 - u) := by
  intro u v h
  match u with
  | 0 =>
    rcases (by simpa [diamondRefs, Edge] using h : v = 1 ∨ v = 2) with rfl | rfl <;> omega
  | 1 =>
    have : v = 3 := by simpa [diamondRefs, Edge] using h
    omega
  | 2 =>
    have : v = 3 := by simpa [diamondRefs, Edge] using h
    omega
  | n + 3 => simp [diamondRefs, Edge] at h

/-- **C6 counterexample.** On a two-node cycle (`0 → 1`, `1 → 0`) the walk
from entry `0` returns `[1, 0]`: the edge `1 → 0` has its target strictly
after its source, so the claimed ordering guarantee ("for every edge `A`
references `B`, `B` never appears strictly after `A`") fails on cyclic
graphs; deduplication still holds. -/
theorem c6_cycle_counterexample :
    all_assets_from_entries cycRefs 2 [0] = [1, 0]
    ∧ 0 ∈ cycRefs 1
    ∧ (all_assets_from_entries cycRefs 2 [0]).indexOf 1 <
        (all_assets_from_entries cycRefs 2 [0]).indexOf 0 := by
  refine ⟨by decide, by decide, by decide⟩

/-- **C6 (amended).** With every node below `N` and well-fed fuel, the walk
returns each distinct reachable asset exactly once (duplicate-free,
complete for reachability, and nothing unreachable), and **when the
reference graph is acyclic** the order is dependency-respecting: references
of emitted assets are themselves emitted and no edge points from an earlier
output position to a later one.  On the diamond `0 → 1, 0 → 2, 1 → 3,
2 → 3` the output is `[3, 1, 2, 0]`: `3` occurs exactly once, before both
`1` and `2`. -/
theorem c6_asset_walk :
    (∀ (refs : Nat → List Nat) (N : Nat) (entries : List Nat),
        (∀ u v, v ∈ refs u → v < N) → (∀ e ∈ entries, e < N) →
        (all_assets_from_entries refs N entries).Nodup
        ∧ (∀ e ∈ entries, ∀ v, Reaches refs e v →
            v ∈ all_assets_from_entries refs N entries)
        ∧ (∀ x ∈ all_assets_from_entries refs N entries, ∃ e ∈ entries, Reaches refs e x)
        ∧ ((∀ u v, Edge refs u v → ¬ Reaches refs v u) →
            (∀ u ∈ all_assets_from_entries refs N entries, ∀ v ∈ refs u,
                v ∈ all_assets_from_entries refs N entries)
            ∧ (all_assets_from_entries refs N entries).Pairwise (fun a b => b ∉ refs a)))
    ∧ all_assets_from_entries diamondRefs 4 [0] = [3, 1, 2, 0]
    ∧ (all_assets_from_entries diamondRefs 4 [0]).count 3 = 1
    ∧ (all_assets_from_entries diamondRefs 4 [0]).indexOf 3 <
        (all_assets_from_entries diamondRefs 4 [0]).indexOf 1
    ∧ (all_assets_from_entries diamondRefs 4 [0]).indexOf 3 <
        (all_assets_from_entries diamondRefs 4 [0]).indexOf 2 := by
  refine ⟨?_, by decide, by decide, by decide, by decide⟩
  intro refs N entries HB HE
  have hinv0 : WalkInv refs N (⟨[], []⟩ : WalkState) := by
    refine ⟨List.nodup_nil, by simp, List.nodup_nil, by simp, by simp⟩
  have hthr0 : N ≤ N + (⟨[], []⟩ : WalkState).visited.length := by simp
  have hconcl := walk_spec_list refs N N (walk_spec_visit refs N HB N) entries
    ⟨[], []⟩ HE hthr0 hinv0
  obtain ⟨⟨nv, no, hvis, hout, _hfresh, hiff, hreach⟩, hinv, hmem, hord⟩ := hconcl
  rw [List.append_nil] at hvis
  rw [List.nil_append] at hout
  have hvo : ∀ x, x ∈ (visitList refs N entries ⟨[], []⟩).visited ↔
      x ∈ all_assets_from_entries refs N entries := by
    intro x
    rw [all_assets_from_entries, hvis, hout]
    exact hiff x
  refine ⟨hinv.2.2.1, ?_, ?_, ?_⟩
  · intro e he v hr
    induction hr with
    | refl => exact (hvo e).mp (hmem e he)
    | tail hab hbc ih =>
      exact (hvo _).mp (hinv.2.2.2.2 _ ih _ hbc)
  · intro x hx
    rw [all_assets_from_entries, hout] at hx
    exact hreach x ((hiff x).mpr hx)
  · intro hacyc
    constructor
    · intro u hu v hv
      rw [all_assets_from_entries, hout] at hu
      exact (hvo v).mp (hinv.2.2.2.2 u (by rw [hout]; exact hu) v hv)
    · have := hord hacyc (by simp)
      rw [all_assets_from_entries]
      exact this

/-- Witness for C6 (amended) on the acyclic diamond graph. -/
theorem c6_asset_walk_witness :
    (∀ u v, v ∈ diamondRefs u → v < 4)
    ∧ (∀ e ∈ [0], e < 4)
    ∧ (∀ u v, Edge diamondRefs u v → ¬ Reaches diamondRefs v u)
    ∧ (all_assets_from_entries diamondRefs 4 [0]).Nodup
    ∧ (all_assets_from_entries diamondRefs 4 [0]).Pairwise
        (fun a b => b ∉ diamondRefs a) := by
  have hacyc : ∀ u v, Edge diamondRefs u v → ¬ Reaches diamondRefs v u :=
    acyclic_of_rank diamondRefs (fun n => 4 - n) diamondRefs_rank
  refine ⟨diamondRefs_lt, by decide, hacyc, ?_, ?_⟩
  · exact (c6_asset_walk.1 diamondRefs 4 [0] diamondRefs_lt (by decide)).1
  · exact ((c6_asset_walk.1 diamondRefs 4 [0] diamondRefs_lt (by decide)).2.2.2 hacyc).2
